import Mathlib

/-!
Verification of the goal contribution range engine (`goal/models.py`).

Shallow embedding conventions:
* calendar dates are modelled as integers counting days; `datetime.timedelta(days=1)`
  becomes the integer `1`, and differences of dates are integers;
* money (`decimal.Decimal` values) is modelled as exact rationals `ℚ`; the one place
  the source multiplies/divides Decimals under the default context (28 significant
  digits, round-half-even) is modelled by the explicit `round28` below, and the one
  place it converts a Python binary float to Decimal is modelled by `pyDiv100`;
* the Django ORM tables are a `DB` record of lists; `objects.create` runs the model's
  overridden `save`, so creation helpers perform exactly the validations of the
  corresponding `save` methods, in source order;
* Django runs in autocommit mode (no `transaction.atomic` appears in the source), so
  every create/delete is immediately persisted; operations therefore return the
  database state reached at the point an exception is raised, not the initial one;
* querysets iterate in storage (insertion) order.
-/

namespace Budget

/-- `GoalStatus` text choices. -/
inductive GoalStatus where
  | pending
  | inProgress
  | completed
  | failed
deriving DecidableEq, Repr

/-- The `Goal` model, restricted to the fields the verified components read
(`id`, `user`, `amount`, `start_date`, `expected_completion_date`, `status`). -/
structure Goal where
  id : Nat
  user : Nat
  amount : Nat
  start_date : Int
  expected_completion_date : Int
  status : GoalStatus
deriving DecidableEq, Repr

/-- The `ContributionRange` model: `{id, user, start_date, end_date}`, inclusive bounds. -/
structure ContributionRange where
  id : Nat
  user : Nat
  start_date : Int
  end_date : Int
deriving DecidableEq, Repr

/-- The `GoalContribution` model: optional cached `amount`, `percentage`,
and foreign keys to its goal and its date range (stored as ids). -/
structure GoalContribution where
  id : Nat
  amount : Option ℚ
  percentage : Nat
  goal : Nat
  date_range : Nat
deriving DecidableEq, Repr

/-- A row of the external transaction source, reduced to what the aggregate query
reads: owner, date, amount, and the category's income flag (`category__income`). -/
structure Transaction where
  user : Nat
  date : Int
  amount : ℚ
  income : Bool
deriving DecidableEq, Repr

/-- The persisted state: the four tables plus a fresh-id counter standing for the
database's `AutoField` sequence. -/
structure DB where
  ranges : List ContributionRange
  contributions : List GoalContribution
  goals : List Goal
  transactions : List Transaction
  nextId : Nat
deriving DecidableEq, Repr

/-- Exceptions surfaced by the modelled operations. -/
inductive Err where
  | validationError (msg : String)
  | protectedError
  | doesNotExist
  | zeroDivisionError
deriving DecidableEq, Repr

/-- The filter predicate of `ContributionRange.get_overlapping_ranges`:
range starts inside, or ends inside, or is fully contained in, the query span. -/
def overlapsQuery (r : ContributionRange) (S E : Int) : Bool :=
  decide ((r.start_date ≤ S ∧ S ≤ r.end_date) ∨ (r.start_date ≤ E ∧ E ≤ r.end_date) ∨
    (S ≤ r.start_date ∧ r.end_date ≤ E))

/-- `ContributionRange.get_overlapping_ranges(user, start_date, end_date)`. -/
def get_overlapping_ranges (db : DB) (u : Nat) (S E : Int) : List ContributionRange :=
  db.ranges.filter (fun r => r.user == u && overlapsQuery r S E)

/-- `ContributionRange.objects.create(...)`, which runs the overridden
`ContributionRange.save`: reject `start_date >= end_date`, then reject any overlap
with an existing range of the same user (a fresh row has no id to exclude). -/
def createRange (db : DB) (u : Nat) (S E : Int) : Except Err (ContributionRange × DB) :=
  if E ≤ S then
    .error (.validationError "Start date must be before end date.")
  else if (get_overlapping_ranges db u S E).isEmpty then
    let r : ContributionRange := ⟨db.nextId, u, S, E⟩
    .ok (r, ⟨db.ranges ++ [r], db.contributions, db.goals, db.transactions, db.nextId + 1⟩)
  else
    .error (.validationError "Cannot have overlapping contribution ranges.")

/-- Primary-key lookup of a goal. -/
def findGoal (db : DB) (gid : Nat) : Option Goal :=
  db.goals.find? (fun g => g.id == gid)

/-- Primary-key lookup of a range (`ContributionRange.objects.get(id=...)`). -/
def findRange (db : DB) (rid : Nat) : Option ContributionRange :=
  db.ranges.find? (fun r => r.id == rid)

/-- The reverse relation `range.contributions.all()`. -/
def rangeContributions (db : DB) (rid : Nat) : List GoalContribution :=
  db.contributions.filter (fun c => c.date_range == rid)

/-- `ContributionRange.total_percentage` / the aggregate inside `validate_percentage`:
sum of the percentages attached to one range (an empty sum is 0). -/
def total_percentage (db : DB) (rid : Nat) : Nat :=
  ((rangeContributions db rid).map (fun c => c.percentage)).sum

/-- `GoalContribution.objects.create(goal, percentage, date_range)`, which runs the
overridden `GoalContribution.save` on a fresh row: reject a completed goal, then
`validate_range` (start before goal start, end after goal completion date), then
`validate_percentage` (existing sum plus the new percentage above 100). -/
def createContribution (db : DB) (gid : Nat) (pct : Nat) (rid : Nat) (amount : Option ℚ) :
    Except Err (GoalContribution × DB) :=
  match findGoal db gid with
  | none => .error .doesNotExist
  | some g =>
    match findRange db rid with
    | none => .error .doesNotExist
    | some dr =>
      if g.status = GoalStatus.completed then
        .error (.validationError "Cannot create a contribution for a completed goal.")
      else if dr.start_date < g.start_date then
        .error (.validationError "Contribution range cannot be before goal start date.")
      else if dr.end_date > g.expected_completion_date then
        .error (.validationError "Contribution range cannot be after goal completion date.")
      else if total_percentage db rid + pct > 100 then
        .error (.validationError "Percentages cannot sum to more than 100.")
      else
        let c : GoalContribution := ⟨db.nextId, amount, pct, gid, rid⟩
        .ok (c, ⟨db.ranges, db.contributions ++ [c], db.goals, db.transactions, db.nextId + 1⟩)

/-- `queryset.delete()` on `range.contributions.all()`: remove every contribution
attached to the range. -/
def removeRangeContributions (db : DB) (rid : Nat) : DB :=
  ⟨db.ranges, db.contributions.filter (fun c => !(c.date_range == rid)),
    db.goals, db.transactions, db.nextId⟩

/-- `range.delete()`. The contribution foreign key is declared `on_delete=PROTECT`,
so deleting a range that still has contributions raises. -/
def deleteRange (db : DB) (rid : Nat) : Except Err DB :=
  if (rangeContributions db rid).isEmpty then
    .ok ⟨db.ranges.filter (fun r => !(r.id == rid)), db.contributions,
      db.goals, db.transactions, db.nextId⟩
  else
    .error .protectedError

/-- Lexicographic order on `(start, end)` pairs, as Python compares tuples. -/
def pairLe (p q : Int × Int) : Bool :=
  decide (p.1 < q.1 ∨ (p.1 = q.1 ∧ p.2 ≤ q.2))

/-- Stable insertion into a lexicographically sorted list of pairs. -/
def insertPair (p : Int × Int) : List (Int × Int) → List (Int × Int)
  | [] => [p]
  | q :: rest => if pairLe p q then p :: q :: rest else q :: insertPair p rest

/-- `sorted(ranges)` on a list of `(start, end)` tuples. -/
def sortPairs : List (Int × Int) → List (Int × Int)
  | [] => []
  | p :: rest => insertPair p (sortPairs rest)

/-- The scan inside `find_gaps`: walk the sorted spans, emitting `(start, span.0 - 1)`
whenever the next span starts after the running `start`, then moving `start` to
`span.1 + 1`; finally emit `(start, end)` when `end > start - 1`. -/
def find_gaps_go : List (Int × Int) → Int → Int → List (Int × Int)
  | [], start, e => if e > start - 1 then [(start, e)] else []
  | r :: rest, start, e =>
      (if r.1 > start then [(start, r.1 - 1)] else []) ++ find_gaps_go rest (r.2 + 1) e

/-- `find_gaps(ranges, start, end)` with the default one-day interval. -/
def find_gaps (ranges : List (Int × Int)) (start e : Int) : List (Int × Int) :=
  find_gaps_go (sortPairs ranges) start e

/-- The inner `add_contributions` helper of `add_new_range`: recreate each
snapshotted `(goal, percentage)` pair on the given range, in order.  A raise
aborts with the database as mutated so far (autocommit). -/
def add_contributions (db : DB) (backup : List (Nat × Nat)) (rid : Nat) :
    Except (Err × DB) DB :=
  match backup with
  | [] => .ok db
  | gp :: rest =>
    match createContribution db gp.1 gp.2 rid none with
    | .error e => .error (e, db)
    | .ok (_, db2) => add_contributions db2 rest rid

/-- Create one sub-range and recreate the snapshotted contributions on it. -/
def createWithContributions (db : DB) (u : Nat) (a b : Int) (backup : List (Nat × Nat)) :
    Except (Err × DB) (ContributionRange × DB) :=
  match createRange db u a b with
  | .error e => .error (e, db)
  | .ok (nr, db2) =>
    match add_contributions db2 backup nr.id with
    | .error e => .error e
    | .ok db3 => .ok (nr, db3)

/-- Outcome of part of one loop iteration: the database, the sub-ranges appended to
`ranges`, and the spans appended to `filled_ranges`, in order. -/
abbrev StepResult := Except (Err × DB) (DB × List ContributionRange × List (Int × Int))

/-- Sequence two pieces of one loop iteration, concatenating their range and
filled-span lists. -/
def andThenStep (s : StepResult) (f : DB → StepResult) : StepResult :=
  match s with
  | .error e => .error e
  | .ok (db, rs, fs) =>
    match f db with
    | .error e => .error e
    | .ok (db2, rs2, fs2) => .ok (db2, rs ++ rs2, fs ++ fs2)

/-- Left side of the split: when `start_date - r.start_date > 0` create
`[r.start_date, start_date - 1]` carrying the snapshotted contributions. -/
def leftStep (u : Nat) (S : Int) (r : ContributionRange) (backup : List (Nat × Nat))
    (db : DB) : StepResult :=
  if S - r.start_date > 0 then
    match createWithContributions db u r.start_date (S - 1) backup with
    | .error e => .error e
    | .ok (nr, db2) => .ok (db2, [nr], [(nr.start_date, nr.end_date)])
  else .ok (db, [], [])

/-- Middle of the split: `middle_start = max(r.start_date, start_date)` (written as
the source's conditional), `middle_end = min(r.end_date, end_date) - middle_start`
as a day count; the range is created only when that count is positive (the
`middle_end > timedelta(0)` guard), else only an error is logged. -/
def middleStep (u : Nat) (S E : Int) (r : ContributionRange) (backup : List (Nat × Nat))
    (db : DB) : StepResult :=
  let ms := if r.start_date ≤ S then S else r.start_date
  let me := min (r.end_date - ms) (E - ms)
  if me > 0 then
    match createWithContributions db u ms (ms + me) backup with
    | .error e => .error e
    | .ok (nr, db2) => .ok (db2, [nr], [(nr.start_date, nr.end_date)])
  else .ok (db, [], [])

/-- Right side of the split: when `r.end_date - end_date > 0` create
`[end_date + 1, r.end_date]` carrying the snapshotted contributions. -/
def rightStep (u : Nat) (E : Int) (r : ContributionRange) (backup : List (Nat × Nat))
    (db : DB) : StepResult :=
  if r.end_date - E > 0 then
    match createWithContributions db u (E + 1) r.end_date backup with
    | .error e => .error e
    | .ok (nr, db2) => .ok (db2, [nr], [(nr.start_date, nr.end_date)])
  else .ok (db, [], [])

/-- One iteration of the loop over the overlapping ranges: snapshot the range's
contributions, delete them, delete the range, then create left/middle/right. -/
def splitOne (db : DB) (u : Nat) (S E : Int) (r : ContributionRange) : StepResult :=
  let backup := (rangeContributions db r.id).map (fun c => (c.goal, c.percentage))
  let db1 := removeRangeContributions db r.id
  match deleteRange db1 r.id with
  | .error e => .error (e, db1)
  | .ok db2 =>
    andThenStep (andThenStep (leftStep u S r backup db2) (middleStep u S E r backup))
      (rightStep u E r backup)

/-- The whole loop over the overlapping ranges (which were fetched once, before
any mutation), accumulating `result` and `filled_ranges`. -/
def splitAll (u : Nat) (S E : Int) : List ContributionRange → DB → StepResult
  | [], db => .ok (db, [], [])
  | r :: rest, db =>
    match splitOne db u S E r with
    | .error e => .error e
    | .ok (db2, rs, fs) =>
      match splitAll u S E rest db2 with
      | .error e => .error e
      | .ok (db3, rs2, fs2) => .ok (db3, rs ++ rs2, fs ++ fs2)

/-- Create a contribution-free range per gap, appending each to `result`. -/
def createGaps (u : Nat) : List (Int × Int) → DB → Except (Err × DB) (DB × List ContributionRange)
  | [], db => .ok (db, [])
  | g :: rest, db =>
    match createRange db u g.1 g.2 with
    | .error e => .error (e, db)
    | .ok (nr, db2) =>
      match createGaps u rest db2 with
      | .error e => .error e
      | .ok (db3, rs) => .ok (db3, nr :: rs)

/-- Stable insertion by `start_date` (Python's `sorted` with a key is stable). -/
def insertByStart (r : ContributionRange) : List ContributionRange → List ContributionRange
  | [] => [r]
  | q :: rest =>
    if r.start_date ≤ q.start_date then r :: q :: rest else q :: insertByStart r rest

/-- `sorted(result, key=lambda x: x.start_date)`. -/
def sortByStart : List ContributionRange → List ContributionRange
  | [] => []
  | r :: rest => insertByStart r (sortByStart rest)

/-- `ContributionRange.add_new_range(user, start_date, end_date)`.  Returns the
database state actually persisted (even when the operation raises part-way, since
nothing wraps it in a transaction) together with either the raised error or the
sorted result list. -/
def add_new_range (db : DB) (u : Nat) (S E : Int) :
    DB × Except Err (List ContributionRange) :=
  let overlapping := get_overlapping_ranges db u S E
  if overlapping.isEmpty then
    match createRange db u S E with
    | .error e => (db, .error e)
    | .ok (nr, db2) => (db2, .ok [nr])
  else
    match splitAll u S E overlapping db with
    | .error (e, db2) => (db2, .error e)
    | .ok (db2, result, filled) =>
      let gaps := find_gaps filled S E
      match createGaps u gaps db2 with
      | .error (e, db3) => (db3, .error e)
      | .ok (db3, gapRanges) => (db3, .ok (sortByStart (result ++ gapRanges)))

/-- Round a rational to the nearest integer, ties to even (the rounding used both
by IEEE-754 binary64 and by the default `decimal` context). -/
def roundHalfEven (q : ℚ) : ℤ :=
  let n := ⌊q⌋
  let f := q - n
  if f < 1 / 2 then n
  else if 1 / 2 < f then n + 1
  else if n % 2 = 0 then n else n + 1

/-- Fuel-bounded search for the floor of `log b q` when `1 ≤ q`: the number of
times `q` can be divided by `b` before dropping below `b`.  (A plain structural
recursion so that kernel reduction can evaluate it, unlike `Int.log`.) -/
def ratLogGe1 : Nat → ℚ → ℚ → ℤ
  | 0, _, _ => 0
  | f + 1, b, q => if q < b then 0 else ratLogGe1 f b (q / b) + 1

/-- Fuel-bounded search for the floor of `log b q` when `0 < q < 1`: minus the
number of times `q` must be multiplied by `b` to reach at least 1. -/
def ratLogLt1 : Nat → ℚ → ℚ → ℤ
  | 0, _, _ => 0
  | f + 1, b, q => if 1 ≤ q then 0 else ratLogLt1 f b (q * b) - 1

/-- `⌊log b q⌋` for `b ≥ 2` and `q > 0`: the unique `e` with `b^e ≤ q < b^(e+1)`.
The fuel `|q.num| + q.den` strictly exceeds the search depth, which is at most
`log 2 q.num` upward and `log 2 q.den` downward. -/
def ratLog (b : ℚ) (q : ℚ) : ℤ :=
  if 1 ≤ q then ratLogGe1 (q.num.natAbs + q.den) b q
  else ratLogLt1 (q.num.natAbs + q.den) b q

/-- The exact value of the Python float `p / 100` (true division of ints is
binary64 division, correctly rounded to 53 significant bits, round-half-even);
`decimal.Decimal(float)` then converts that value exactly.  `e` is the binary
exponent of `p / 100`, so the significand `x * 2^(52-e)` lies in `[2^52, 2^53)`. -/
def pyDiv100 (p : Nat) : ℚ :=
  if p = 0 then 0
  else
    let x : ℚ := (p : ℚ) / 100
    let e : ℤ := ratLog 2 x
    (roundHalfEven (x * 2 ^ ((52 : ℤ) - e)) : ℚ) * 2 ^ (e - (52 : ℤ))

/-- Correct rounding to the default `decimal` context: 28 significant decimal
digits, round-half-even.  `e` is the decimal exponent of `|q|`, so
`|q| * 10^(27-e)` lies in `[10^27, 10^28)` and is rounded to an integer. -/
def round28 (q : ℚ) : ℚ :=
  if q = 0 then 0
  else
    let a := |q|
    let e : ℤ := ratLog 10 a
    let m : ℚ := (roundHalfEven (a * 10 ^ ((27 : ℤ) - e)) : ℚ) * 10 ^ (e - (27 : ℤ))
    if q < 0 then -m else m

/-- The body of `GoalContribution.contribution` below the cache check: the
transaction aggregate (sum of amounts grouped by the category's income flag,
filtered by the goal's user and the range's dates) folded into
income total minus expense total.  A group with no rows is absent from the
aggregate and contributes 0, exactly as the empty sum does here. -/
def net_saved (db : DB) (u : Nat) (S E : Int) : ℚ :=
  let ts := db.transactions.filter
    (fun t => t.user == u && decide (S ≤ t.date) && decide (t.date ≤ E))
  ((ts.filter (fun t => t.income)).map (fun t => t.amount)).sum
    - ((ts.filter (fun t => !t.income)).map (fun t => t.amount)).sum

/-- The uncached branch of `GoalContribution.contribution`:
`net_saved * Decimal(percentage / 100)`, with the product rounded by the default
decimal context.  `none` models the `DoesNotExist` raised if a foreign key is
dangling. -/
def computeContribution (db : DB) (c : GoalContribution) : Option ℚ :=
  match findGoal db c.goal, findRange db c.date_range with
  | some g, some dr =>
      some (round28 (net_saved db g.user dr.start_date dr.end_date * pyDiv100 c.percentage))
  | _, _ => none

/-- The `GoalContribution.contribution` property.  The guard is the Python
truthiness test `if self.amount:`, so a cached amount of exactly 0 falls through
to the recomputation branch just like a missing one. -/
def contribution (db : DB) (c : GoalContribution) : Option ℚ :=
  match c.amount with
  | some a => if a = 0 then computeContribution db c else some a
  | none => computeContribution db c

/-- `sum(c.contribution for c in contributions)`: the generator is consumed in
order and the first contribution whose lookup raises aborts the sum (`none`).
The additions themselves are exact (`ℚ` is associative, so the fold direction
does not matter). -/
def sumContributions (db : DB) : List GoalContribution → Option ℚ
  | [] => some 0
  | c :: rest =>
    match contribution db c, sumContributions db rest with
    | some a, some s => some (a + s)
    | _, _ => none

/-- `Goal.get_progress(percentage)`: sum `contribution` over the goal's
contributions; when `percentage` is set, divide by `goal.amount` (raising
`ZeroDivisionError` when it is 0) and multiply by 100.  The division and the
multiplication are decimal-context operations, hence the `round28`s; with no
contributions the sum is the int 0 and float division yields the same value 0. -/
def get_progress (db : DB) (g : Goal) (percentage : Bool) : Except Err ℚ :=
  match sumContributions db (db.contributions.filter (fun c => c.goal == g.id)) with
  | none => .error .doesNotExist
  | some total =>
    if percentage then
      if g.amount = 0 then .error .zeroDivisionError
      else .ok (round28 (round28 (total / (g.amount : ℚ)) * 100))
    else .ok total

/-- Two inclusive day spans share at least one day. -/
def spansOverlap (a b S E : Int) : Prop :=
  a ≤ E ∧ S ≤ b

/-- All invariants a reachable database state satisfies: every range is at least two
days (`save` enforces `start_date < end_date`), ranges of one user are pairwise
disjoint, range ids are unique and below the id counter, every range's percentage
total is at most 100, and foreign keys are live. -/
def WF (db : DB) : Prop :=
  (∀ r ∈ db.ranges, r.start_date < r.end_date) ∧
  db.ranges.Pairwise
    (fun r1 r2 => r1.user = r2.user → r1.end_date < r2.start_date ∨ r2.end_date < r1.start_date) ∧
  (∀ r ∈ db.ranges, r.id < db.nextId) ∧
  (db.ranges.map (fun r => r.id)).Nodup ∧
  (∀ r ∈ db.ranges, total_percentage db r.id ≤ 100) ∧
  (∀ c ∈ db.contributions, ∃ r ∈ db.ranges, r.id = c.date_range) ∧
  (∀ c ∈ db.contributions, ∃ g ∈ db.goals, g.id = c.goal)

/-- One user's partition, id-independently: the multiset of range spans together
with the multiset of `(goal, percentage)` pairs attached to each. -/
def partition (db : DB) (u : Nat) : Multiset (Int × Int × Multiset (Nat × Nat)) :=
  ((db.ranges.filter (fun r => r.user == u)).map
    (fun r => (r.start_date, r.end_date,
      ((rangeContributions db r.id).map (fun c => (c.goal, c.percentage)) : Multiset (Nat × Nat)))) :
    Multiset (Int × Int × Multiset (Nat × Nat)))

/-- A goal used by the concrete examples. -/
def exGoal : Goal := ⟨7, 0, 1000, 0, 40, GoalStatus.inProgress⟩

/-- One range `[0, 40]` of user 0 carrying a 50% contribution to `exGoal`. -/
def dbSplit : DB := ⟨[⟨1, 0, 0, 40⟩], [⟨2, none, 50, 7, 1⟩], [exGoal], [], 3⟩

/-- One range `[0, 10]` of user 0 carrying a 40% contribution to `exGoal`;
claiming `[10, 20]` intersects it in the single day 10. -/
def dbDay : DB := ⟨[⟨1, 0, 0, 10⟩], [⟨2, none, 40, 7, 1⟩], [exGoal], [], 3⟩

/-- One range `[0, 40]` carrying a 30% contribution to a goal that is COMPLETED. -/
def dbAtomic : DB :=
  ⟨[⟨1, 0, 0, 40⟩], [⟨2, none, 30, 9, 1⟩], [⟨9, 0, 500, 0, 40, GoalStatus.completed⟩], [], 3⟩

/-- One range `[5, 8]` of user 0 and nothing else. -/
def dbIdem : DB := ⟨[⟨1, 0, 5, 8⟩], [], [], [], 2⟩

/-- A range `[0, 30]` of user 0 holding three contributions to `exGoal` — one with a
cached amount of exactly 0 (percentage 40), one uncached at percentage 10, one
uncached at percentage 50 — and a single income transaction of 1000 in the span. -/
def dbMoney : DB :=
  ⟨[⟨1, 0, 0, 30⟩], [⟨2, some 0, 40, 7, 1⟩, ⟨3, none, 10, 7, 1⟩, ⟨4, none, 50, 7, 1⟩],
    [exGoal], [⟨0, 5, 1000, true⟩], 5⟩

/-- Ranges `[0, 12]` and `[14, 40]` of user 0: claiming `[0, 40]` leaves the
single-day gap `[13, 13]`. -/
def dbGapFail : DB := ⟨[⟨1, 0, 0, 12⟩, ⟨2, 0, 14, 40⟩], [], [], [], 3⟩

/-- One range `[9, 40]` of user 0: claiming `[10, 20]` derives the single-day left
leftover `[9, 9]`. -/
def dbLeftFail : DB := ⟨[⟨1, 0, 9, 40⟩], [], [], [], 2⟩

/-- One range `[100, 200]` of user 3 carrying a 25% contribution to a COMPLETED goal. -/
def dbC9db : DB :=
  ⟨[⟨1, 3, 100, 200⟩], [⟨2, none, 25, 11, 1⟩], [⟨11, 3, 800, 100, 200, GoalStatus.completed⟩], [], 3⟩

/-- A goal with `amount = 0` and a goal with `amount = 200`, with no contributions. -/
def dbProgress : DB :=
  ⟨[], [], [⟨1, 0, 0, 0, 30, GoalStatus.inProgress⟩, ⟨2, 0, 200, 0, 30, GoalStatus.inProgress⟩], [], 3⟩

/-- The `middle_start` computed inside the split loop: `max(r.start_date, S)`,
written as the source's conditional. -/
def middleStart (S : Int) (r : ContributionRange) : Int :=
  if r.start_date ≤ S then S else r.start_date

/-- The `middle_end` day count computed inside the split loop:
`min(r.end_date, E) - middle_start`. -/
def middleLen (S E : Int) (r : ContributionRange) : Int :=
  min (r.end_date - middleStart S r) (E - middleStart S r)

/-- The in-memory snapshot (`contributions_backup`) taken of a range's
contributions before they are deleted. -/
def backupOf (db : DB) (rid : Nat) : List (Nat × Nat) :=
  (rangeContributions db rid).map (fun c => (c.goal, c.percentage))

/-- The database contains a range spanning `[a, b]` with id at least `n` that
carries, for every `(goal, percentage)` pair of `backup`, a contribution with
exactly those fields. -/
def createdWithBackup (db : DB) (n : Nat) (a b : Int) (backup : List (Nat × Nat)) : Prop :=
  ∃ L ∈ db.ranges, n ≤ L.id ∧ L.start_date = a ∧ L.end_date = b ∧
    ∀ gp ∈ backup, ∃ c ∈ db.contributions,
      c.date_range = L.id ∧ c.goal = gp.1 ∧ c.percentage = gp.2

/-- The contribution rows `add_contributions` appends when recreating a backup
list on range `rid`, starting from id counter `n`: ids run consecutively,
`amount` is not carried over (the source recreates with goal and percentage
only), and every row points at `rid`. -/
def recreated (n : Nat) (rid : Nat) : List (Nat × Nat) → List GoalContribution
  | [] => []
  | gp :: rest => ⟨n, none, gp.2, gp.1, rid⟩ :: recreated (n + 1) rid rest

/-- Decidable form of the `GoalContribution.save` guards for recreating a
contribution on a range with `t`'s span: the goal row exists, is not COMPLETED,
and its `[start_date, expected_completion_date]` window contains the span. -/
def contribGuardOk (db : DB) (t : ContributionRange) (c : GoalContribution) : Bool :=
  match findGoal db c.goal with
  | none => false
  | some g => decide (g.status ≠ GoalStatus.completed ∧ g.start_date ≤ t.start_date ∧
      t.end_date ≤ g.expected_completion_date)

/-- The state `add_new_range dbSplit 0 10 20` persists: the claim `[10, 20]` is
exactly tiled by one stored range, with leftovers `[0, 9]` and `[21, 40]` outside
it — the input for the repeat-call (idempotence) witness. -/
def dbTiled : DB := (add_new_range dbSplit 0 10 20).1

deriving instance DecidableEq for Except

attribute [local semireducible] Rat.add Rat.sub Rat.mul Rat.inv Rat.ofScientific

/-- C1 (counterexample).  On a partition holding `[0, 40]` with a 50% contribution,
`add_new_range(u, 10, 20)` succeeds but returns the left leftover `[0, 9]` and the
right leftover `[21, 40]` alongside the middle `[10, 20]`: the returned spans do
not exactly cover `[10, 20]`, and the leftovers are part of the returned
sequence, refuting the claim as stated. -/
theorem C1_counterexample :
    (add_new_range dbSplit 0 10 20).2 =
      Except.ok [⟨3, 0, 0, 9⟩, ⟨5, 0, 10, 20⟩, ⟨7, 0, 21, 40⟩] ∧
    ¬ ∀ r ∈ [(⟨3, 0, 0, 9⟩ : ContributionRange), ⟨5, 0, 10, 20⟩, ⟨7, 0, 21, 40⟩],
        (10 : Int) ≤ r.start_date ∧ r.end_date ≤ 20 := by
  decide

/-- C2 (counterexample).  The range `[0, 10]` overlaps the claim `[10, 20]` in the
single day 10, so the middle `[max(r.start, S), min(r.end, E)] = [10, 10]` is
non-empty; but the code's `middle_end > timedelta(0)` guard skips its creation:
after the call no range `[10, 10]` exists, day 10 is covered only by the
contribution-free gap-fill range `[10, 20]` (id 5), and the 40% contribution is
destroyed on that day — refuting "middle is always created" and conservation. -/
theorem C2_counterexample :
    (add_new_range dbDay 0 10 20).2 = Except.ok [⟨3, 0, 0, 9⟩, ⟨5, 0, 10, 20⟩] ∧
    (∀ r ∈ (add_new_range dbDay 0 10 20).1.ranges,
      ¬(r.start_date = 10 ∧ r.end_date = 10)) ∧
    rangeContributions (add_new_range dbDay 0 10 20).1 5 = [] := by
  decide

/-- C3 (counterexample).  Splitting `[0, 40]` for the claim `[10, 20]` aborts when
the 30% contribution to a COMPLETED goal is recreated on the left leftover, yet
the persisted state is not the pre-call state: the operation is not atomic. -/
theorem C3_counterexample :
    (∃ e, (add_new_range dbAtomic 0 10 20).2 = Except.error e) ∧
    (add_new_range dbAtomic 0 10 20).1 ≠ dbAtomic := by
  exact ⟨⟨Err.validationError "Cannot create a contribution for a completed goal.",
    by decide⟩, by decide⟩

/-- C3 (amended).  `add_new_range` runs in autocommit with no enclosing
transaction: an error raised mid-split leaves the mutations already performed
persisted.  Concretely, the failing call above persists the partial split of a
one-range partition — the original range `[0, 40]` and its contribution are gone
and only the bare left leftover `[0, 9]` remains. -/
theorem C3_amended :
    (add_new_range dbAtomic 0 10 20).2 =
      Except.error (Err.validationError "Cannot create a contribution for a completed goal.") ∧
    (add_new_range dbAtomic 0 10 20).1.ranges = [⟨3, 0, 0, 9⟩] ∧
    (add_new_range dbAtomic 0 10 20).1.contributions = [] := by
  decide

/-- C5 (counterexample).  With bounds S = 5 > 1 = E over the partition `\x7b[5, 8]\x7d`,
the first call succeeds (returning the reshaped range `[2, 8]`) but the second
call with identical bounds raises and mutates the partition — so idempotence
fails for bounds that are not ordered. -/
theorem C5_counterexample :
    (add_new_range dbIdem 0 5 1).2 = Except.ok [⟨2, 0, 2, 8⟩] ∧
    (∃ e, (add_new_range (add_new_range dbIdem 0 5 1).1 0 5 1).2 = Except.error e) ∧
    partition (add_new_range (add_new_range dbIdem 0 5 1).1 0 5 1).1 0 ≠
      partition (add_new_range dbIdem 0 5 1).1 0 := by
  refine ⟨by decide,
    ⟨Err.validationError "Cannot have overlapping contribution ranges.", by decide⟩, by decide⟩

/-- C6 (counterexample).  Inserting a single-day range (start = end = 5) into an
empty store raises even though start is not greater than end and nothing
overlaps: `save` rejects `start_date >= end_date`, not just `start_date > end_date`. -/
theorem C6_counterexample :
    ¬ (5 : Int) > 5 ∧ (⟨[], [], [], [], 1⟩ : DB).ranges = [] ∧
    ∃ e, createRange ⟨[], [], [], [], 1⟩ 0 5 5 = Except.error e := by
  exact ⟨by decide, rfl,
    ⟨Err.validationError "Start date must be before end date.", by decide⟩⟩

set_option maxRecDepth 40000 in
/-- C8 (counterexample).  Over a net saving of 1000: a contribution whose cached
amount is exactly 0 does not return its cached amount (Python truthiness treats
`Decimal(0)` as absent), and a percentage of 10 does not yield the exact
`1000 × 10/100 = 100` (the source computes `Decimal(10 / 100)` by binary float
division), refuting both halves of the claim. -/
theorem C8_counterexample :
    net_saved dbMoney 0 0 30 = 1000 ∧
    contribution dbMoney ⟨2, some 0, 40, 7, 1⟩ ≠ some 0 ∧
    contribution dbMoney ⟨3, none, 10, 7, 1⟩ ≠ some 100 := by
  decide

/-- C9 (counterexample).  The claim `[130, 160]` (with S ≤ E) over the partition
`\x7b[100, 200]\x7d` fails although the store-level overlap guard is never violated:
recreating the snapshotted 25% contribution fails because its goal is COMPLETED. -/
theorem C9_counterexample :
    (130 : Int) ≤ 160 ∧
    (add_new_range dbC9db 3 130 160).2 =
      Except.error (Err.validationError "Cannot create a contribution for a completed goal.") := by
  decide

/-- C9 (amended).  `add_new_range` has failure modes beyond the overlap guard:
a single-day gap (`[13, 13]` between `[0, 12]` and `[14, 40]` under the claim
`[0, 40]`) and a single-day left leftover (`[9, 9]` when `[9, 40]` is split by the
claim `[10, 20]`) both trip the store's `start_date >= end_date` rejection, and a
snapshotted contribution to a COMPLETED goal aborts the migration (shown in the
counterexample); each aborts the call mid-split. -/
theorem C9_amended :
    (add_new_range dbGapFail 0 0 40).2 =
      Except.error (Err.validationError "Start date must be before end date.") ∧
    (add_new_range dbLeftFail 0 10 20).2 =
      Except.error (Err.validationError "Start date must be before end date.") := by
  decide

/-- For a stored range (`start ≤ end`) the source's three-clause overlap filter
agrees with genuine span intersection. -/
theorem overlapsQuery_iff_of_wf {r : ContributionRange} {S E : Int}
    (hr : r.start_date ≤ r.end_date) (hSE : S ≤ E) :
    overlapsQuery r S E = true ↔ (r.start_date ≤ E ∧ S ≤ r.end_date) := by
  simp only [overlapsQuery, decide_eq_true_eq]
  omega

/-- Membership in `get_overlapping_ranges`, unfolded. -/
theorem mem_get_overlapping_ranges {db : DB} {u : Nat} {S E : Int} {r : ContributionRange} :
    r ∈ get_overlapping_ranges db u S E ↔
      r ∈ db.ranges ∧ r.user = u ∧ overlapsQuery r S E = true := by
  simp [get_overlapping_ranges, List.mem_filter]

/-- The contribution sum succeeds when every contribution in the list resolves. -/
theorem sumContributions_isSome (db : DB) :
    ∀ l : List GoalContribution, (∀ c ∈ l, contribution db c ≠ none) →
      ∃ s, sumContributions db l = some s := by
  intro l
  induction l with
  | nil => intro _; exact ⟨0, rfl⟩
  | cons x xs ih =>
    intro h
    obtain ⟨a, ha⟩ : ∃ a, contribution db x = some a := by
      cases hfx : contribution db x with
      | none => exact absurd hfx (h x (by simp))
      | some a => exact ⟨a, rfl⟩
    obtain ⟨s, hs⟩ := ih (fun c hc => h c (by simp [hc]))
    exact ⟨a + s, by rw [sumContributions, ha, hs]⟩

/-- C6 (amended theorem).  Saving a fresh range raises a ValidationError if and
only if `start_date ≥ end_date` (so a single-day range is rejected, not stored)
or the span overlaps an existing range of the same user; otherwise the range is
appended to the store with exactly the requested user and bounds. -/
theorem C6_insert_validation (db : DB) (u : Nat) (S E : Int)
    (hwf : ∀ r ∈ db.ranges, r.start_date < r.end_date) :
    ((∃ e, createRange db u S E = Except.error e) ↔
      (E ≤ S ∨ ∃ r ∈ db.ranges, r.user = u ∧ r.start_date ≤ E ∧ S ≤ r.end_date)) ∧
    (∀ nr db2, createRange db u S E = Except.ok (nr, db2) →
      db2.ranges = db.ranges ++ [nr] ∧ nr.user = u ∧ nr.start_date = S ∧ nr.end_date = E) := by
  by_cases hse : E ≤ S
  · constructor
    · exact ⟨fun _ => Or.inl hse, fun _ => ⟨_, by unfold createRange; rw [if_pos hse]⟩⟩
    · intro nr db2 hok
      unfold createRange at hok
      rw [if_pos hse] at hok
      exact absurd hok (by simp)
  · have hiff : (get_overlapping_ranges db u S E).isEmpty = true ↔
        ¬ ∃ r ∈ db.ranges, r.user = u ∧ r.start_date ≤ E ∧ S ≤ r.end_date := by
      rw [List.isEmpty_iff]
      constructor
      · intro hnil ⟨r, hmem, hu, h1, h2⟩
        have : r ∈ get_overlapping_ranges db u S E := by
          rw [mem_get_overlapping_ranges]
          exact ⟨hmem, hu, (overlapsQuery_iff_of_wf (le_of_lt (hwf r hmem)) (by omega)).mpr ⟨h1, h2⟩⟩
        rw [hnil] at this
        exact absurd this (List.not_mem_nil r)
      · intro hno
        by_contra hne
        obtain ⟨r, hr⟩ := List.exists_mem_of_ne_nil _ hne
        rw [mem_get_overlapping_ranges] at hr
        exact hno ⟨r, hr.1, hr.2.1,
          (overlapsQuery_iff_of_wf (le_of_lt (hwf r hr.1)) (by omega)).mp hr.2.2⟩
    constructor
    · constructor
      · rintro ⟨e, he⟩
        unfold createRange at he
        rw [if_neg hse] at he
        by_cases hemp : (get_overlapping_ranges db u S E).isEmpty = true
        · rw [if_pos hemp] at he
          exact absurd he (by simp)
        · exact Or.inr (by
            by_contra hno
            exact hemp (hiff.mpr hno))
      · rintro (h | h)
        · exact absurd h hse
        · refine ⟨Err.validationError "Cannot have overlapping contribution ranges.", ?_⟩
          unfold createRange
          rw [if_neg hse, if_neg]
          intro hemp
          exact (hiff.mp hemp) h
    · intro nr db2 hok
      unfold createRange at hok
      rw [if_neg hse] at hok
      by_cases hemp : (get_overlapping_ranges db u S E).isEmpty = true
      · rw [if_pos hemp] at hok
        cases hok
        exact ⟨rfl, rfl, rfl, rfl⟩
      · rw [if_neg hemp] at hok
        exact absurd hok (by simp)

/-- C6 (witness): a span overlapping a stored range is rejected, through the
theorem's error characterization. -/
theorem C6_insert_validation_witness :
    ∃ e, createRange ⟨[⟨1, 0, 0, 10⟩], [], [], [], 2⟩ 0 5 20 = Except.error e := by
  have h := (C6_insert_validation ⟨[⟨1, 0, 0, 10⟩], [], [], [], 2⟩ 0 5 20 (by decide)).1
  exact h.mpr (Or.inr ⟨⟨1, 0, 0, 10⟩, by simp, rfl, by decide, by decide⟩)

/-- C7 (theorem).  Creating a contribution raises a ValidationError if and only
if the goal is COMPLETED, or the range lies outside the goal's
`[start_date, expected_completion_date]`, or the existing percentages on the
range plus the new one exceed 100; otherwise the contribution is stored with the
requested percentage, goal and range. -/
theorem C7_contribution_validation (db : DB) (gid pct rid : Nat) (g : Goal)
    (dr : ContributionRange) (hg : findGoal db gid = some g)
    (hr : findRange db rid = some dr) :
    ((∃ e, createContribution db gid pct rid none = Except.error e) ↔
      (g.status = GoalStatus.completed ∨ dr.start_date < g.start_date ∨
        g.expected_completion_date < dr.end_date ∨ 100 < total_percentage db rid + pct)) ∧
    (∀ c db2, createContribution db gid pct rid none = Except.ok (c, db2) →
      db2.contributions = db.contributions ++ [c] ∧ c.amount = none ∧
      c.percentage = pct ∧ c.goal = gid ∧ c.date_range = rid) := by
  unfold createContribution
  rw [hg, hr]
  by_cases h1 : g.status = GoalStatus.completed
  · simp [h1]
  · by_cases h2 : dr.start_date < g.start_date
    · simp [h1, h2]
    · by_cases h3 : dr.end_date > g.expected_completion_date
      · simp [h1, h2, h3]
      · by_cases h4 : total_percentage db rid + pct > 100
        · simp [h1, h2, h3, h4]
        · constructor
          · simp only [if_neg h1, if_neg h2, if_neg h3, if_neg h4]
            constructor
            · rintro ⟨e, he⟩
              exact absurd he (by simp)
            · rintro (h | h | h | h)
              · exact absurd h h1
              · exact absurd h h2
              · exact absurd h (by omega)
              · exact absurd h (by omega)
          · intro c db2 hok
            simp only [if_neg h1, if_neg h2, if_neg h3, if_neg h4] at hok
            cases hok
            exact ⟨rfl, rfl, rfl, rfl, rfl⟩

/-- C7 (witness): adding 20% to a completed goal's horizon-matching range is
rejected, through the theorem's error characterization. -/
theorem C7_contribution_validation_witness :
    ∃ e, createContribution
      ⟨[⟨1, 0, 0, 30⟩], [], [⟨5, 0, 100, 0, 30, GoalStatus.completed⟩], [], 2⟩
      5 20 1 none = Except.error e := by
  have h := (C7_contribution_validation
    ⟨[⟨1, 0, 0, 30⟩], [], [⟨5, 0, 100, 0, 30, GoalStatus.completed⟩], [], 2⟩
    5 20 1 ⟨5, 0, 100, 0, 30, GoalStatus.completed⟩ ⟨1, 0, 0, 30⟩ rfl rfl).1
  exact h.mpr (Or.inl rfl)

set_option maxRecDepth 40000 in
/-- C8 (amended theorem).  `contribution` returns the cached amount exactly when
it is present and nonzero; a cached 0 is treated as absent (Python truthiness)
and recomputed; the uncached value is the net savings over the range times
`Decimal(percentage / 100)`, where `percentage / 100` is binary float division
and the product is rounded to the 28-digit decimal context — for percentage 50
(whose float is exact) and net savings 1000 this yields exactly 500. -/
theorem C8_amended :
    (∀ (db : DB) (c : GoalContribution) (a : ℚ), c.amount = some a → a ≠ 0 →
      contribution db c = some a) ∧
    (∀ (db : DB) (c : GoalContribution), c.amount = some 0 →
      contribution db c = computeContribution db c) ∧
    (∀ (db : DB) (c : GoalContribution) (g : Goal) (dr : ContributionRange),
      c.amount = none → findGoal db c.goal = some g → findRange db c.date_range = some dr →
      contribution db c =
        some (round28 (net_saved db g.user dr.start_date dr.end_date * pyDiv100 c.percentage))) ∧
    contribution dbMoney ⟨4, none, 50, 7, 1⟩ = some 500 := by
  refine ⟨?_, ?_, ?_, ?_⟩
  · intro db c a h hne
    unfold contribution
    rw [h]
    simp [hne]
  · intro db c h
    unfold contribution
    rw [h]
    simp
  · intro db c g dr h hg hr
    unfold contribution computeContribution
    rw [h, hg, hr]
  · decide

/-- C8 (witness): a nonzero cached amount of 7 is returned as-is, through the
theorem's first clause. -/
theorem C8_amended_witness :
    contribution dbMoney ⟨9, some 7, 40, 7, 1⟩ = some 7 :=
  C8_amended.1 dbMoney ⟨9, some 7, 40, 7, 1⟩ 7 rfl (by norm_num)

/-- C10 (theorem).  `get_progress(percentage=True)` divides the summed
contributions by `goal.amount` (a `Nat`, admitting 0): whenever every
contribution of the goal resolves, the percentage variant raises
`ZeroDivisionError` exactly when `goal.amount = 0` and is total otherwise — so
it is well-defined only under the unstated precondition `goal.amount > 0`. -/
theorem C10_progress (db : DB) (g : Goal)
    (h : ∀ c ∈ db.contributions, c.goal = g.id → contribution db c ≠ none) :
    (g.amount = 0 → get_progress db g true = Except.error Err.zeroDivisionError) ∧
    (g.amount ≠ 0 → ∃ v, get_progress db g true = Except.ok v) := by
  obtain ⟨s, hs⟩ := sumContributions_isSome db
    (db.contributions.filter (fun c => c.goal == g.id))
    (by
      intro c hc
      rw [List.mem_filter] at hc
      exact h c hc.1 (by simpa using hc.2))
  unfold get_progress
  rw [hs]
  constructor
  · intro h0
    simp [h0]
  · intro h0
    refine ⟨round28 (round28 (s / (g.amount : ℚ)) * 100), ?_⟩
    simp [h0]

/-- C10 (witness): with no contributions, the percentage progress of an
`amount = 0` goal raises `ZeroDivisionError` while an `amount = 200` goal's is
total, both through the theorem. -/
theorem C10_progress_witness :
    get_progress dbProgress ⟨1, 0, 0, 0, 30, GoalStatus.inProgress⟩ true =
      Except.error Err.zeroDivisionError ∧
    ∃ v, get_progress dbProgress ⟨2, 0, 200, 0, 30, GoalStatus.inProgress⟩ true =
      Except.ok v := by
  constructor
  · exact (C10_progress dbProgress ⟨1, 0, 0, 0, 30, GoalStatus.inProgress⟩
      (by intro c hc; simp [dbProgress] at hc)).1 rfl
  · exact (C10_progress dbProgress ⟨2, 0, 200, 0, 30, GoalStatus.inProgress⟩
      (by intro c hc; simp [dbProgress] at hc)).2 (by norm_num)

/-- Everything a successful `createRange` determines about its output. -/
theorem createRange_ok {db : DB} {u : Nat} {S E : Int} {nr : ContributionRange} {db2 : DB}
    (h : createRange db u S E = Except.ok (nr, db2)) :
    nr.id = db.nextId ∧ nr.user = u ∧ nr.start_date = S ∧ nr.end_date = E ∧
    db2.ranges = db.ranges ++ [nr] ∧ db2.contributions = db.contributions ∧
    db2.goals = db.goals ∧ db2.transactions = db.transactions ∧
    db2.nextId = db.nextId + 1 ∧ S < E ∧
    get_overlapping_ranges db u S E = [] := by
  unfold createRange at h
  by_cases h1 : E ≤ S
  · rw [if_pos h1] at h
    exact absurd h (by simp)
  · rw [if_neg h1] at h
    by_cases h2 : (get_overlapping_ranges db u S E).isEmpty = true
    · rw [if_pos h2] at h
      cases h
      exact ⟨rfl, rfl, rfl, rfl, rfl, rfl, rfl, rfl, rfl, by omega, List.isEmpty_iff.mp h2⟩
    · rw [if_neg h2] at h
      exact absurd h (by simp)

/-- Everything a successful `createContribution` determines about its output. -/
theorem createContribution_ok {db : DB} {gid pct rid : Nat} {am : Option ℚ}
    {c : GoalContribution} {db2 : DB}
    (h : createContribution db gid pct rid am = Except.ok (c, db2)) :
    c.id = db.nextId ∧ c.amount = am ∧ c.percentage = pct ∧ c.goal = gid ∧
    c.date_range = rid ∧
    db2.ranges = db.ranges ∧ db2.contributions = db.contributions ++ [c] ∧
    db2.goals = db.goals ∧ db2.transactions = db.transactions ∧
    db2.nextId = db.nextId + 1 ∧
    (∃ g, findGoal db gid = some g ∧ g.status ≠ GoalStatus.completed ∧
      ∃ dr, findRange db rid = some dr ∧ g.start_date ≤ dr.start_date ∧
        dr.end_date ≤ g.expected_completion_date) ∧
    total_percentage db rid + pct ≤ 100 := by
  unfold createContribution at h
  cases hg : findGoal db gid with
  | none => rw [hg] at h; exact absurd h (by simp)
  | some g =>
    rw [hg] at h
    cases hr : findRange db rid with
    | none => rw [hr] at h; exact absurd h (by simp)
    | some dr =>
      rw [hr] at h
      dsimp only at h
      by_cases h1 : g.status = GoalStatus.completed
      · rw [if_pos h1] at h; exact absurd h (by simp)
      · rw [if_neg h1] at h
        by_cases h2 : dr.start_date < g.start_date
        · rw [if_pos h2] at h; exact absurd h (by simp)
        · rw [if_neg h2] at h
          by_cases h3 : dr.end_date > g.expected_completion_date
          · rw [if_pos h3] at h; exact absurd h (by simp)
          · rw [if_neg h3] at h
            by_cases h4 : total_percentage db rid + pct > 100
            · rw [if_pos h4] at h; exact absurd h (by simp)
            · rw [if_neg h4] at h
              cases h
              exact ⟨rfl, rfl, rfl, rfl, rfl, rfl, rfl, rfl, rfl, rfl,
                ⟨g, rfl, h1, dr, rfl, by omega, by omega⟩, by omega⟩

/-- A range of the right user that a successful overlap query missed is disjoint
from the query span. -/
theorem not_overlapping_of_empty {db : DB} {u : Nat} {S E : Int}
    (h : get_overlapping_ranges db u S E = []) {r : ContributionRange}
    (hr : r ∈ db.ranges) (hu : r.user = u) :
    r.end_date < S ∨ E < r.start_date := by
  by_contra hcon
  push_neg at hcon
  have hmem : r ∈ get_overlapping_ranges db u S E := by
    rw [mem_get_overlapping_ranges]
    refine ⟨hr, hu, ?_⟩
    simp only [overlapsQuery, decide_eq_true_eq]
    omega
  rw [h] at hmem
  exact absurd hmem (List.not_mem_nil r)

/-- `total_percentage` reads only the contributions table. -/
theorem total_percentage_congr {db db2 : DB} (h : db2.contributions = db.contributions)
    (rid : Nat) : total_percentage db2 rid = total_percentage db rid := by
  simp [total_percentage, rangeContributions, h]

/-- A guarded range insertion preserves every invariant. -/
theorem wf_createRange {db : DB} {u : Nat} {S E : Int} {nr : ContributionRange} {db2 : DB}
    (hwf : WF db) (h : createRange db u S E = Except.ok (nr, db2)) : WF db2 := by
  obtain ⟨hid, huser, hS, hE, hrng, hcon, hgoals, _, hnext, hSE, hemp⟩ := createRange_ok h
  obtain ⟨w1, w2, w3, w4, w5, w6, w7⟩ := hwf
  have htp : ∀ rid, total_percentage db2 rid = total_percentage db rid :=
    total_percentage_congr hcon
  refine ⟨?_, ?_, ?_, ?_, ?_, ?_, ?_⟩
  · intro r hr
    rw [hrng] at hr
    rcases List.mem_append.mp hr with h' | h'
    · exact w1 r h'
    · rw [List.mem_singleton] at h'
      subst h'
      rw [hS, hE]
      exact hSE
  · rw [hrng]
    refine List.pairwise_append.mpr ⟨w2, List.pairwise_singleton .., ?_⟩
    intro r1 h1 r2 h2 huser12
    rw [List.mem_singleton] at h2
    subst h2
    have hd := not_overlapping_of_empty hemp h1 (by rw [← huser]; exact huser12)
    rw [hS, hE]
    exact hd
  · intro r hr
    rw [hrng] at hr
    rw [hnext]
    rcases List.mem_append.mp hr with h' | h'
    · have := w3 r h'
      omega
    · rw [List.mem_singleton] at h'
      subst h'
      rw [hid]
      omega
  · rw [hrng, List.map_append]
    refine List.nodup_append.mpr ⟨w4, List.nodup_singleton _, ?_⟩
    intro a ha hb
    rw [List.mem_map] at ha
    obtain ⟨r, hrm, hrid⟩ := ha
    rw [List.map_singleton, List.mem_singleton] at hb
    have := w3 r hrm
    rw [hb, hid] at hrid
    omega
  · intro r hr
    rw [htp]
    rw [hrng] at hr
    rcases List.mem_append.mp hr with h' | h'
    · exact w5 r h'
    · rw [List.mem_singleton] at h'
      subst h'
      have hnone : rangeContributions db r.id = [] := by
        rw [hid]
        apply List.filter_eq_nil_iff.mpr
        intro c hc
        obtain ⟨r', hr', hid'⟩ := w6 c hc
        have := w3 r' hr'
        simp only [beq_iff_eq]
        omega
      simp [total_percentage, hnone]
  · intro c hc
    rw [hcon] at hc
    obtain ⟨r', hr', hid'⟩ := w6 c hc
    exact ⟨r', by rw [hrng]; exact List.mem_append_left _ hr', hid'⟩
  · intro c hc
    rw [hcon] at hc
    obtain ⟨g, hg, hgid⟩ := w7 c hc
    exact ⟨g, by rw [hgoals]; exact hg, hgid⟩

/-- A guarded contribution insertion preserves every invariant. -/
theorem wf_createContribution {db : DB} {gid pct rid : Nat} {am : Option ℚ}
    {c : GoalContribution} {db2 : DB} (hwf : WF db)
    (h : createContribution db gid pct rid am = Except.ok (c, db2)) : WF db2 := by
  obtain ⟨_, _, hcp, _, hcr, hrng, hcon, hgoals, _, _, ⟨g, hg, _, dr, hr, _, _⟩, hpct⟩ :=
    createContribution_ok h
  obtain ⟨w1, w2, w3, w4, w5, w6, w7⟩ := hwf
  have hrc : ∀ rid', rangeContributions db2 rid' =
      rangeContributions db rid' ++ (if c.date_range == rid' then [c] else []) := by
    intro rid'
    rw [rangeContributions, hcon, List.filter_append, rangeContributions]
    congr 1
    rw [List.filter_singleton]
    cases hb : (c.date_range == rid') <;> simp [hb]
  refine ⟨?_, ?_, ?_, ?_, ?_, ?_, ?_⟩
  · intro r hr'
    rw [hrng] at hr'
    exact w1 r hr'
  · rw [hrng]
    exact w2
  · intro r hr'
    rw [hrng] at hr'
    have := w3 r hr'
    omega
  · rw [hrng]
    exact w4
  · intro r hr'
    rw [hrng] at hr'
    rw [total_percentage, hrc]
    by_cases hdr : c.date_range == r.id
    · rw [if_pos hdr, List.map_append, List.sum_append]
      simp only [List.map_cons, List.map_nil, List.sum_cons, List.sum_nil]
      rw [beq_iff_eq] at hdr
      rw [hcr] at hdr
      subst hdr
      have := w5 r hr'
      rw [total_percentage] at hpct
      omega
    · rw [if_neg hdr, List.append_nil]
      exact w5 r hr'
  · intro c' hc'
    rw [hcon] at hc'
    rcases List.mem_append.mp hc' with h' | h'
    · obtain ⟨r', hr', hid'⟩ := w6 c' h'
      exact ⟨r', by rw [hrng]; exact hr', hid'⟩
    · rw [List.mem_singleton] at h'
      subst h'
      refine ⟨dr, by rw [hrng]; exact List.mem_of_find?_eq_some hr, ?_⟩
      have := List.find?_some hr
      rw [beq_iff_eq] at this
      rw [this, hcr]
  · intro c' hc'
    rw [hcon] at hc'
    rcases List.mem_append.mp hc' with h' | h'
    · obtain ⟨g', hg', hgid'⟩ := w7 c' h'
      exact ⟨g', by rw [hgoals]; exact hg', hgid'⟩
    · rw [List.mem_singleton] at h'
      subst h'
      refine ⟨g, by rw [hgoals]; exact List.mem_of_find?_eq_some hg, ?_⟩
      have := List.find?_some hg
      rw [beq_iff_eq] at this
      obtain ⟨_, _, _, hcg, _, _⟩ := createContribution_ok h
      rw [this, hcg]

/-- Deleting a range's contributions preserves every invariant. -/
theorem wf_removeRangeContributions {db : DB} (rid : Nat) (hwf : WF db) :
    WF (removeRangeContributions db rid) := by
  obtain ⟨w1, w2, w3, w4, w5, w6, w7⟩ := hwf
  have hsub : ∀ rid', List.Sublist (rangeContributions (removeRangeContributions db rid) rid')
      (rangeContributions db rid') := by
    intro rid'
    rw [rangeContributions, rangeContributions, removeRangeContributions]
    exact (List.filter_sublist db.contributions).filter _
  refine ⟨w1, w2, w3, w4, ?_, ?_, ?_⟩
  · intro r hr
    calc total_percentage (removeRangeContributions db rid) r.id
        ≤ total_percentage db r.id := by
          rw [total_percentage, total_percentage]
          exact ((hsub r.id).map _).sum_le_sum (by intro b _; exact Nat.zero_le b)
      _ ≤ 100 := w5 r hr
  · intro c hc
    rw [removeRangeContributions] at hc
    exact w6 c (List.mem_of_mem_filter hc)
  · intro c hc
    rw [removeRangeContributions] at hc
    exact w7 c (List.mem_of_mem_filter hc)

/-- A PROTECT-guarded range deletion preserves every invariant. -/
theorem wf_deleteRange {db : DB} {rid : Nat} {db2 : DB} (hwf : WF db)
    (h : deleteRange db rid = Except.ok db2) : WF db2 := by
  obtain ⟨w1, w2, w3, w4, w5, w6, w7⟩ := hwf
  unfold deleteRange at h
  by_cases hemp : (rangeContributions db rid).isEmpty = true
  · rw [if_pos hemp] at h
    cases h
    have hsub : List.Sublist (db.ranges.filter (fun r => !(r.id == rid))) db.ranges :=
      List.filter_sublist db.ranges
    refine ⟨?_, ?_, ?_, ?_, ?_, ?_, ?_⟩
    · intro r hr
      exact w1 r (List.mem_of_mem_filter hr)
    · exact w2.sublist hsub
    · intro r hr
      exact w3 r (List.mem_of_mem_filter hr)
    · exact w4.sublist (hsub.map _)
    · intro r hr
      have : total_percentage ⟨db.ranges.filter (fun r => !(r.id == rid)), db.contributions,
          db.goals, db.transactions, db.nextId⟩ r.id = total_percentage db r.id :=
        total_percentage_congr rfl r.id
      rw [this]
      exact w5 r (List.mem_of_mem_filter hr)
    · intro c hc
      obtain ⟨r', hr', hid'⟩ := w6 c hc
      refine ⟨r', List.mem_filter.mpr ⟨hr', ?_⟩, hid'⟩
      rw [Bool.not_eq_true', beq_eq_false_iff_ne]
      intro hcon
      have hcmem : c ∈ rangeContributions db rid := by
        rw [rangeContributions, List.mem_filter]
        exact ⟨hc, by rw [beq_iff_eq, ← hid']; exact hcon⟩
      rw [List.isEmpty_iff.mp hemp] at hcmem
      exact absurd hcmem (List.not_mem_nil c)
    · exact w7
  · rw [if_neg hemp] at h
    exact absurd h (by simp)

/-- Recreating a list of snapshotted contributions preserves every invariant,
also at the state reached when a recreation raises part-way. -/
theorem wf_add_contributions : ∀ (backup : List (Nat × Nat)) (rid : Nat) (db : DB), WF db →
    (∀ db2, add_contributions db backup rid = Except.ok db2 → WF db2) ∧
    (∀ e db2, add_contributions db backup rid = Except.error (e, db2) → WF db2) := by
  intro backup
  induction backup with
  | nil =>
    intro rid db hwf
    constructor
    · intro db2 h
      simp only [add_contributions] at h
      cases h
      exact hwf
    · intro e db2 h
      simp only [add_contributions] at h
      exact absurd h (by simp)
  | cons gp rest ih =>
    intro rid db hwf
    constructor
    · intro db2 h
      simp only [add_contributions] at h
      cases hc : createContribution db gp.1 gp.2 rid none with
      | error e' =>
        rw [hc] at h
        exact absurd h (by simp)
      | ok p =>
        obtain ⟨c, db'⟩ := p
        rw [hc] at h
        exact (ih rid db' (wf_createContribution hwf hc)).1 db2 h
    · intro e db2 h
      simp only [add_contributions] at h
      cases hc : createContribution db gp.1 gp.2 rid none with
      | error e' =>
        rw [hc] at h
        cases h
        exact hwf
      | ok p =>
        obtain ⟨c, db'⟩ := p
        rw [hc] at h
        exact (ih rid db' (wf_createContribution hwf hc)).2 e db2 h

/-- Creating a sub-range and recreating the snapshot on it preserves every
invariant, in both outcomes. -/
theorem wf_createWithContributions (db : DB) (u : Nat) (a b : Int)
    (backup : List (Nat × Nat)) (hwf : WF db) :
    (∀ nr db2, createWithContributions db u a b backup = Except.ok (nr, db2) → WF db2) ∧
    (∀ e db2, createWithContributions db u a b backup = Except.error (e, db2) → WF db2) := by
  constructor
  · intro nr db2 h
    unfold createWithContributions at h
    cases hc : createRange db u a b with
    | error e0 =>
      rw [hc] at h
      exact absurd h (by simp)
    | ok p =>
      obtain ⟨nr0, dbm⟩ := p
      rw [hc] at h
      dsimp only at h
      cases ha : add_contributions dbm backup nr0.id with
      | error p0 =>
        rw [ha] at h
        exact absurd h (by simp)
      | ok dbn =>
        rw [ha] at h
        simp only [Except.ok.injEq, Prod.mk.injEq] at h
        rw [← h.2]
        exact (wf_add_contributions backup nr0.id dbm (wf_createRange hwf hc)).1 dbn ha
  · intro e db2 h
    unfold createWithContributions at h
    cases hc : createRange db u a b with
    | error e0 =>
      rw [hc] at h
      dsimp only at h
      cases h
      exact hwf
    | ok p =>
      obtain ⟨nr0, dbm⟩ := p
      rw [hc] at h
      dsimp only at h
      cases ha : add_contributions dbm backup nr0.id with
      | error p0 =>
        obtain ⟨e0, dbe⟩ := p0
        rw [ha] at h
        simp only [Except.error.injEq, Prod.mk.injEq] at h
        rw [← h.2]
        exact (wf_add_contributions backup nr0.id dbm (wf_createRange hwf hc)).2 e0 dbe ha
      | ok dbn =>
        rw [ha] at h
        exact absurd h (by simp)

/-- The left-leftover step preserves every invariant. -/
theorem wf_leftStep (u : Nat) (S : Int) (r : ContributionRange)
    (backup : List (Nat × Nat)) (db : DB) (hwf : WF db) :
    (∀ db2 rs fs, leftStep u S r backup db = Except.ok (db2, rs, fs) → WF db2) ∧
    (∀ e db2, leftStep u S r backup db = Except.error (e, db2) → WF db2) := by
  have hcw := wf_createWithContributions db u r.start_date (S - 1) backup hwf
  constructor
  · intro db2 rs fs h
    unfold leftStep at h
    by_cases hc : S - r.start_date > 0
    · rw [if_pos hc] at h
      cases hcw2 : createWithContributions db u r.start_date (S - 1) backup with
      | error p => rw [hcw2] at h; exact absurd h (by simp)
      | ok p =>
        obtain ⟨nr, dbp⟩ := p
        rw [hcw2] at h
        simp only [Except.ok.injEq, Prod.mk.injEq] at h
        rw [← h.1]
        exact hcw.1 nr dbp hcw2
    · rw [if_neg hc] at h
      cases h
      exact hwf
  · intro e db2 h
    unfold leftStep at h
    by_cases hc : S - r.start_date > 0
    · rw [if_pos hc] at h
      cases hcw2 : createWithContributions db u r.start_date (S - 1) backup with
      | error p =>
        obtain ⟨e0, dbe⟩ := p
        rw [hcw2] at h
        simp only [Except.error.injEq, Prod.mk.injEq] at h
        rw [← h.2]
        exact hcw.2 e0 dbe hcw2
      | ok p =>
        obtain ⟨nr, dbp⟩ := p
        rw [hcw2] at h
        exact absurd h (by simp)
    · rw [if_neg hc] at h
      exact absurd h (by simp)

/-- The middle step preserves every invariant. -/
theorem wf_middleStep (u : Nat) (S E : Int) (r : ContributionRange)
    (backup : List (Nat × Nat)) (db : DB) (hwf : WF db) :
    (∀ db2 rs fs, middleStep u S E r backup db = Except.ok (db2, rs, fs) → WF db2) ∧
    (∀ e db2, middleStep u S E r backup db = Except.error (e, db2) → WF db2) := by
  unfold middleStep
  set ms := if r.start_date ≤ S then S else r.start_date with hms
  set me := min (r.end_date - ms) (E - ms) with hme
  have hcw := wf_createWithContributions db u ms (ms + me) backup hwf
  constructor
  · intro db2 rs fs h
    by_cases hc : me > 0
    · rw [if_pos hc] at h
      cases hcw2 : createWithContributions db u ms (ms + me) backup with
      | error p => rw [hcw2] at h; exact absurd h (by simp)
      | ok p =>
        obtain ⟨nr, dbp⟩ := p
        rw [hcw2] at h
        simp only [Except.ok.injEq, Prod.mk.injEq] at h
        rw [← h.1]
        exact hcw.1 nr dbp hcw2
    · rw [if_neg hc] at h
      cases h
      exact hwf
  · intro e db2 h
    by_cases hc : me > 0
    · rw [if_pos hc] at h
      cases hcw2 : createWithContributions db u ms (ms + me) backup with
      | error p =>
        obtain ⟨e0, dbe⟩ := p
        rw [hcw2] at h
        simp only [Except.error.injEq, Prod.mk.injEq] at h
        rw [← h.2]
        exact hcw.2 e0 dbe hcw2
      | ok p =>
        obtain ⟨nr, dbp⟩ := p
        rw [hcw2] at h
        exact absurd h (by simp)
    · rw [if_neg hc] at h
      exact absurd h (by simp)

/-- The right-leftover step preserves every invariant. -/
theorem wf_rightStep (u : Nat) (E : Int) (r : ContributionRange)
    (backup : List (Nat × Nat)) (db : DB) (hwf : WF db) :
    (∀ db2 rs fs, rightStep u E r backup db = Except.ok (db2, rs, fs) → WF db2) ∧
    (∀ e db2, rightStep u E r backup db = Except.error (e, db2) → WF db2) := by
  have hcw := wf_createWithContributions db u (E + 1) r.end_date backup hwf
  constructor
  · intro db2 rs fs h
    unfold rightStep at h
    by_cases hc : r.end_date - E > 0
    · rw [if_pos hc] at h
      cases hcw2 : createWithContributions db u (E + 1) r.end_date backup with
      | error p => rw [hcw2] at h; exact absurd h (by simp)
      | ok p =>
        obtain ⟨nr, dbp⟩ := p
        rw [hcw2] at h
        simp only [Except.ok.injEq, Prod.mk.injEq] at h
        rw [← h.1]
        exact hcw.1 nr dbp hcw2
    · rw [if_neg hc] at h
      cases h
      exact hwf
  · intro e db2 h
    unfold rightStep at h
    by_cases hc : r.end_date - E > 0
    · rw [if_pos hc] at h
      cases hcw2 : createWithContributions db u (E + 1) r.end_date backup with
      | error p =>
        obtain ⟨e0, dbe⟩ := p
        rw [hcw2] at h
        simp only [Except.error.injEq, Prod.mk.injEq] at h
        rw [← h.2]
        exact hcw.2 e0 dbe hcw2
      | ok p =>
        obtain ⟨nr, dbp⟩ := p
        rw [hcw2] at h
        exact absurd h (by simp)
    · rw [if_neg hc] at h
      exact absurd h (by simp)

/-- Sequencing two invariant-preserving pieces preserves the invariant. -/
theorem wf_andThenStep {s : StepResult} {f : DB → StepResult}
    (hs_ok : ∀ db rs fs, s = Except.ok (db, rs, fs) → WF db)
    (hs_err : ∀ e db, s = Except.error (e, db) → WF db)
    (hf : ∀ db, WF db →
      (∀ db2 rs fs, f db = Except.ok (db2, rs, fs) → WF db2) ∧
      (∀ e db2, f db = Except.error (e, db2) → WF db2)) :
    (∀ db2 rs fs, andThenStep s f = Except.ok (db2, rs, fs) → WF db2) ∧
    (∀ e db2, andThenStep s f = Except.error (e, db2) → WF db2) := by
  cases s with
  | error p =>
    obtain ⟨e0, dbe⟩ := p
    constructor
    · intro db2 rs fs h
      unfold andThenStep at h
      exact absurd h (by simp)
    · intro e db2 h
      unfold andThenStep at h
      dsimp only at h
      cases h
      exact hs_err e0 dbe rfl
  | ok t =>
    obtain ⟨db1, rs1, fs1⟩ := t
    have hwf1 : WF db1 := hs_ok db1 rs1 fs1 rfl
    constructor
    · intro db2 rs fs h
      unfold andThenStep at h
      dsimp only at h
      cases hf2 : f db1 with
      | error p => rw [hf2] at h; exact absurd h (by simp)
      | ok t2 =>
        obtain ⟨db2x, rs2, fs2⟩ := t2
        rw [hf2] at h
        simp only [Except.ok.injEq, Prod.mk.injEq] at h
        rw [← h.1]
        exact (hf db1 hwf1).1 db2x rs2 fs2 hf2
    · intro e db2 h
      unfold andThenStep at h
      dsimp only at h
      cases hf2 : f db1 with
      | error p =>
        obtain ⟨e2, dbe⟩ := p
        rw [hf2] at h
        simp only [Except.error.injEq, Prod.mk.injEq] at h
        rw [← h.2]
        exact (hf db1 hwf1).2 e2 dbe hf2
      | ok t2 =>
        obtain ⟨db2x, rs2, fs2⟩ := t2
        rw [hf2] at h
        exact absurd h (by simp)

/-- One split iteration preserves every invariant, in both outcomes. -/
theorem wf_splitOne (db : DB) (u : Nat) (S E : Int) (r : ContributionRange) (hwf : WF db) :
    (∀ db2 rs fs, splitOne db u S E r = Except.ok (db2, rs, fs) → WF db2) ∧
    (∀ e db2, splitOne db u S E r = Except.error (e, db2) → WF db2) := by
  have hwf1 : WF (removeRangeContributions db r.id) := wf_removeRangeContributions r.id hwf
  constructor
  · intro db2 rs fs h
    unfold splitOne at h
    dsimp only at h
    cases hd : deleteRange (removeRangeContributions db r.id) r.id with
    | error e0 => rw [hd] at h; exact absurd h (by simp)
    | ok dbm =>
      rw [hd] at h
      have hwf2 := wf_deleteRange hwf1 hd
      have hL := wf_leftStep u S r ((rangeContributions db r.id).map
        (fun c => (c.goal, c.percentage))) dbm hwf2
      have h1 := wf_andThenStep hL.1 hL.2 (fun db0 hwf0 => wf_middleStep u S E r
        ((rangeContributions db r.id).map (fun c => (c.goal, c.percentage))) db0 hwf0)
      have h2 := wf_andThenStep h1.1 h1.2 (fun db0 hwf0 => wf_rightStep u E r
        ((rangeContributions db r.id).map (fun c => (c.goal, c.percentage))) db0 hwf0)
      exact h2.1 db2 rs fs h
  · intro e db2 h
    unfold splitOne at h
    dsimp only at h
    cases hd : deleteRange (removeRangeContributions db r.id) r.id with
    | error e0 =>
      rw [hd] at h
      cases h
      exact hwf1
    | ok dbm =>
      rw [hd] at h
      have hwf2 := wf_deleteRange hwf1 hd
      have hL := wf_leftStep u S r ((rangeContributions db r.id).map
        (fun c => (c.goal, c.percentage))) dbm hwf2
      have h1 := wf_andThenStep hL.1 hL.2 (fun db0 hwf0 => wf_middleStep u S E r
        ((rangeContributions db r.id).map (fun c => (c.goal, c.percentage))) db0 hwf0)
      have h2 := wf_andThenStep h1.1 h1.2 (fun db0 hwf0 => wf_rightStep u E r
        ((rangeContributions db r.id).map (fun c => (c.goal, c.percentage))) db0 hwf0)
      exact h2.2 e db2 h

/-- The whole split loop preserves every invariant, in both outcomes. -/
theorem wf_splitAll (u : Nat) (S E : Int) : ∀ (l : List ContributionRange) (db : DB), WF db →
    (∀ db2 rs fs, splitAll u S E l db = Except.ok (db2, rs, fs) → WF db2) ∧
    (∀ e db2, splitAll u S E l db = Except.error (e, db2) → WF db2) := by
  intro l
  induction l with
  | nil =>
    intro db hwf
    constructor
    · intro db2 rs fs h
      simp only [splitAll] at h
      cases h
      exact hwf
    · intro e db2 h
      simp only [splitAll] at h
      exact absurd h (by simp)
  | cons r rest ih =>
    intro db hwf
    constructor
    · intro db2 rs fs h
      simp only [splitAll] at h
      cases h1 : splitOne db u S E r with
      | error p => rw [h1] at h; exact absurd h (by simp)
      | ok t =>
        obtain ⟨dbm, rs0, fs0⟩ := t
        rw [h1] at h
        dsimp only at h
        have hwfm := (wf_splitOne db u S E r hwf).1 dbm rs0 fs0 h1
        cases h2 : splitAll u S E rest dbm with
        | error p => rw [h2] at h; exact absurd h (by simp)
        | ok t2 =>
          obtain ⟨dbn, rs2, fs2⟩ := t2
          rw [h2] at h
          simp only [Except.ok.injEq, Prod.mk.injEq] at h
          rw [← h.1]
          exact (ih dbm hwfm).1 dbn rs2 fs2 h2
    · intro e db2 h
      simp only [splitAll] at h
      cases h1 : splitOne db u S E r with
      | error p =>
        obtain ⟨e0, dbe⟩ := p
        rw [h1] at h
        simp only [Except.error.injEq, Prod.mk.injEq] at h
        rw [← h.2]
        exact (wf_splitOne db u S E r hwf).2 e0 dbe h1
      | ok t =>
        obtain ⟨dbm, rs0, fs0⟩ := t
        rw [h1] at h
        dsimp only at h
        have hwfm := (wf_splitOne db u S E r hwf).1 dbm rs0 fs0 h1
        cases h2 : splitAll u S E rest dbm with
        | error p =>
          obtain ⟨e2, dbe⟩ := p
          rw [h2] at h
          simp only [Except.error.injEq, Prod.mk.injEq] at h
          rw [← h.2]
          exact (ih dbm hwfm).2 e2 dbe h2
        | ok t2 =>
          obtain ⟨dbn, rs2, fs2⟩ := t2
          rw [h2] at h
          exact absurd h (by simp)

/-- Gap filling preserves every invariant, in both outcomes. -/
theorem wf_createGaps (u : Nat) : ∀ (gaps : List (Int × Int)) (db : DB), WF db →
    (∀ db2 rs, createGaps u gaps db = Except.ok (db2, rs) → WF db2) ∧
    (∀ e db2, createGaps u gaps db = Except.error (e, db2) → WF db2) := by
  intro gaps
  induction gaps with
  | nil =>
    intro db hwf
    constructor
    · intro db2 rs h
      simp only [createGaps] at h
      cases h
      exact hwf
    · intro e db2 h
      simp only [createGaps] at h
      exact absurd h (by simp)
  | cons g rest ih =>
    intro db hwf
    constructor
    · intro db2 rs h
      simp only [createGaps] at h
      cases h1 : createRange db u g.1 g.2 with
      | error e0 => rw [h1] at h; exact absurd h (by simp)
      | ok p =>
        obtain ⟨nr, dbm⟩ := p
        rw [h1] at h
        dsimp only at h
        have hwfm := wf_createRange hwf h1
        cases h2 : createGaps u rest dbm with
        | error p2 => rw [h2] at h; exact absurd h (by simp)
        | ok t2 =>
          obtain ⟨dbn, rs2⟩ := t2
          rw [h2] at h
          simp only [Except.ok.injEq, Prod.mk.injEq] at h
          rw [← h.1]
          exact (ih dbm hwfm).1 dbn rs2 h2
    · intro e db2 h
      simp only [createGaps] at h
      cases h1 : createRange db u g.1 g.2 with
      | error e0 =>
        rw [h1] at h
        cases h
        exact hwf
      | ok p =>
        obtain ⟨nr, dbm⟩ := p
        rw [h1] at h
        dsimp only at h
        have hwfm := wf_createRange hwf h1
        cases h2 : createGaps u rest dbm with
        | error p2 =>
          obtain ⟨e2, dbe⟩ := p2
          rw [h2] at h
          simp only [Except.error.injEq, Prod.mk.injEq] at h
          rw [← h.2]
          exact (ih dbm hwfm).2 e2 dbe h2
        | ok t2 =>
          obtain ⟨dbn, rs2⟩ := t2
          rw [h2] at h
          exact absurd h (by simp)

/-- `add_new_range` preserves every invariant in the state it persists, whether
it returns or raises. -/
theorem wf_add_new_range (db : DB) (u : Nat) (S E : Int) (hwf : WF db) :
    WF (add_new_range db u S E).1 := by
  unfold add_new_range
  by_cases hemp : (get_overlapping_ranges db u S E).isEmpty = true
  · rw [if_pos hemp]
    cases hc : createRange db u S E with
    | error e => exact hwf
    | ok p =>
      obtain ⟨nr, db2⟩ := p
      exact wf_createRange hwf hc
  · rw [if_neg hemp]
    cases hs : splitAll u S E (get_overlapping_ranges db u S E) db with
    | error p =>
      obtain ⟨e, dbe⟩ := p
      exact (wf_splitAll u S E (get_overlapping_ranges db u S E) db hwf).2 e dbe hs
    | ok t =>
      obtain ⟨db2, result, filled⟩ := t
      dsimp only
      have hwf2 := (wf_splitAll u S E (get_overlapping_ranges db u S E) db hwf).1
        db2 result filled hs
      cases hg : createGaps u (find_gaps filled S E) db2 with
      | error p =>
        obtain ⟨e, dbe⟩ := p
        exact (wf_createGaps u (find_gaps filled S E) db2 hwf2).2 e dbe hg
      | ok t2 =>
        obtain ⟨db3, gapRanges⟩ := t2
        exact (wf_createGaps u (find_gaps filled S E) db2 hwf2).1 db3 gapRanges hg

/-- C4.  In every well-formed state — no two stored ranges of one user share a
day, every range's contribution percentages sum to at most 100, plus the
structural facts listed in `WF` — each operation preserves the invariant: a
range save, a contribution save, and `add_new_range` as a whole, the last in the
state it persists even when it aborts mid-split. -/
theorem C4_invariants (db : DB) (u : Nat) (S E : Int) (gid pct rid : Nat) (am : Option ℚ)
    (hwf : WF db) :
    (∀ nr db2, createRange db u S E = Except.ok (nr, db2) → WF db2) ∧
    (∀ c db2, createContribution db gid pct rid am = Except.ok (c, db2) → WF db2) ∧
    WF (add_new_range db u S E).1 :=
  ⟨fun _ _ h => wf_createRange hwf h, fun _ _ h => wf_createContribution hwf h,
    wf_add_new_range db u S E hwf⟩

/-- C4 (witness): the invariants hold after splitting `[0, 40]` with its 50%
contribution under the claim `[10, 20]`, through the theorem at `dbSplit`. -/
theorem C4_invariants_witness : WF (add_new_range dbSplit 0 10 20).1 :=
  (C4_invariants dbSplit 0 10 20 0 0 0 none
    ⟨by decide, by decide, by decide, by decide, by decide, by decide, by decide⟩).2.2

/-- Membership through pair insertion. -/
theorem mem_insertPair {p q : Int × Int} : ∀ {l : List (Int × Int)},
    q ∈ insertPair p l ↔ q = p ∨ q ∈ l := by
  intro l
  induction l with
  | nil => simp [insertPair]
  | cons x rest ih =>
    by_cases hc : pairLe p x = true
    · simp [insertPair, hc]
    · rw [insertPair, if_neg hc]
      simp only [List.mem_cons, ih]
      tauto

/-- Membership through pair sorting. -/
theorem mem_sortPairs {q : Int × Int} : ∀ {l : List (Int × Int)},
    q ∈ sortPairs l ↔ q ∈ l := by
  intro l
  induction l with
  | nil => simp [sortPairs]
  | cons x rest ih =>
    simp only [sortPairs, mem_insertPair, List.mem_cons, ih]

/-- Membership through insertion by start date. -/
theorem mem_insertByStart {r q : ContributionRange} : ∀ {l : List ContributionRange},
    q ∈ insertByStart r l ↔ q = r ∨ q ∈ l := by
  intro l
  induction l with
  | nil => simp [insertByStart]
  | cons x rest ih =>
    by_cases hc : r.start_date ≤ x.start_date
    · simp [insertByStart, hc]
    · simp only [insertByStart, if_neg hc, List.mem_cons, ih]
      tauto

/-- Membership through the final sort of `add_new_range`. -/
theorem mem_sortByStart {q : ContributionRange} : ∀ {l : List ContributionRange},
    q ∈ sortByStart l ↔ q ∈ l := by
  intro l
  induction l with
  | nil => simp [sortByStart]
  | cons x rest ih =>
    simp only [sortByStart, mem_insertByStart, List.mem_cons, ih]

/-- Inserting into a list sorted by start date keeps it sorted. -/
theorem insertByStart_pairwise {r : ContributionRange} : ∀ {l : List ContributionRange},
    l.Pairwise (fun a b => a.start_date ≤ b.start_date) →
    (insertByStart r l).Pairwise (fun a b => a.start_date ≤ b.start_date) := by
  intro l
  induction l with
  | nil => intro _; simp [insertByStart]
  | cons x rest ih =>
    intro h
    rw [List.pairwise_cons] at h
    by_cases hc : r.start_date ≤ x.start_date
    · rw [insertByStart, if_pos hc]
      rw [List.pairwise_cons]
      refine ⟨?_, List.pairwise_cons.mpr h⟩
      intro b hb
      rcases List.mem_cons.mp hb with h' | h'
      · rw [h']; exact hc
      · exact le_trans hc (h.1 b h')
    · rw [insertByStart, if_neg hc]
      rw [List.pairwise_cons]
      constructor
      · intro b hb
        rcases mem_insertByStart.mp hb with h' | h'
        · rw [h']; omega
        · exact h.1 b h'
      · exact ih h.2

/-- The final sort really sorts by start date. -/
theorem sortByStart_pairwise : ∀ (l : List ContributionRange),
    (sortByStart l).Pairwise (fun a b => a.start_date ≤ b.start_date) := by
  intro l
  induction l with
  | nil => simp [sortByStart]
  | cons x rest ih => exact insertByStart_pairwise ih

/-- The scan of `find_gaps` misses no day: every day of `[start, e]` not below the
running start is inside a scanned span or inside an emitted gap. -/
theorem find_gaps_go_cover : ∀ (L : List (Int × Int)) (start e d : Int), d ≤ e →
    d < start ∨ (∃ p ∈ L, p.1 ≤ d ∧ d ≤ p.2) ∨
      (∃ g ∈ find_gaps_go L start e, g.1 ≤ d ∧ d ≤ g.2) := by
  intro L
  induction L with
  | nil =>
    intro start e d hde
    by_cases h : e > start - 1
    · simp only [find_gaps_go, if_pos h, List.mem_singleton, List.not_mem_nil]
      by_cases hd : d < start
      · exact Or.inl hd
      · exact Or.inr (Or.inr ⟨(start, e), rfl, by omega, hde⟩)
    · simp only [find_gaps_go, if_neg h]
      left
      omega
  | cons p rest ih =>
    intro start e d hde
    simp only [find_gaps_go]
    rcases ih (p.2 + 1) e d hde with h1 | h2 | h3
    · by_cases hp : p.1 ≤ d
      · exact Or.inr (Or.inl ⟨p, List.mem_cons_self p rest, hp, by omega⟩)
      · by_cases hs : d < start
        · exact Or.inl hs
        · refine Or.inr (Or.inr ⟨(start, p.1 - 1), ?_, by omega, by omega⟩)
          rw [List.mem_append, if_pos (by omega : p.1 > start)]
          exact Or.inl (List.mem_singleton.mpr rfl)
    · obtain ⟨q, hq, hcov⟩ := h2
      exact Or.inr (Or.inl ⟨q, List.mem_cons_of_mem p hq, hcov⟩)
    · obtain ⟨g, hg, hcov⟩ := h3
      exact Or.inr (Or.inr ⟨g, List.mem_append.mpr (Or.inr hg), hcov⟩)

/-- `find_gaps` misses no day of `[start, e]` at or past `start`. -/
theorem find_gaps_cover {L : List (Int × Int)} {start e d : Int}
    (hds : start ≤ d) (hde : d ≤ e) :
    (∃ p ∈ L, p.1 ≤ d ∧ d ≤ p.2) ∨
      (∃ g ∈ find_gaps L start e, g.1 ≤ d ∧ d ≤ g.2) := by
  rcases find_gaps_go_cover (sortPairs L) start e d hde with h1 | h2 | h3
  · omega
  · obtain ⟨p, hp, hcov⟩ := h2
    exact Or.inl ⟨p, mem_sortPairs.mp hp, hcov⟩
  · exact Or.inr h3

/-- Decompose a successful `createWithContributions` into its two stages. -/
theorem createWithContributions_ok {db : DB} {u : Nat} {a b : Int}
    {backup : List (Nat × Nat)} {nr : ContributionRange} {db2 : DB}
    (h : createWithContributions db u a b backup = Except.ok (nr, db2)) :
    ∃ dbm, createRange db u a b = Except.ok (nr, dbm) ∧
      add_contributions dbm backup nr.id = Except.ok db2 := by
  unfold createWithContributions at h
  cases hc : createRange db u a b with
  | error e0 => rw [hc] at h; exact absurd h (by simp)
  | ok p =>
    obtain ⟨nr0, dbm⟩ := p
    rw [hc] at h
    dsimp only at h
    cases ha : add_contributions dbm backup nr0.id with
    | error p0 => rw [ha] at h; exact absurd h (by simp)
    | ok dbn =>
      rw [ha] at h
      simp only [Except.ok.injEq, Prod.mk.injEq] at h
      obtain ⟨h1, h2⟩ := h
      refine ⟨dbm, ?_, ?_⟩
      · rw [← h1]
      · rw [← h1, ← h2]
        exact ha

/-- Decompose a successful `andThenStep` into its two pieces. -/
theorem andThenStep_ok {s : StepResult} {f : DB → StepResult} {db2 : DB}
    {rs : List ContributionRange} {fs : List (Int × Int)}
    (h : andThenStep s f = Except.ok (db2, rs, fs)) :
    ∃ db1 rs1 fs1 rs2 fs2, s = Except.ok (db1, rs1, fs1) ∧
      f db1 = Except.ok (db2, rs2, fs2) ∧ rs = rs1 ++ rs2 ∧ fs = fs1 ++ fs2 := by
  cases s with
  | error p => unfold andThenStep at h; exact absurd h (by simp)
  | ok t =>
    obtain ⟨db1, rs1, fs1⟩ := t
    unfold andThenStep at h
    dsimp only at h
    cases hf2 : f db1 with
    | error p => rw [hf2] at h; exact absurd h (by simp)
    | ok t2 =>
      obtain ⟨db2x, rs2, fs2⟩ := t2
      rw [hf2] at h
      simp only [Except.ok.injEq, Prod.mk.injEq] at h
      obtain ⟨h1, h2, h3⟩ := h
      exact ⟨db1, rs1, fs1, rs2, fs2, rfl, h1 ▸ hf2, h2.symm, h3.symm⟩

/-- What a successful left step did: nothing when `r.start_date ≥ S`, else one
sub-range `[r.start_date, S-1]` with the snapshot. -/
theorem leftStep_ok {u : Nat} {S : Int} {r : ContributionRange}
    {backup : List (Nat × Nat)} {db db2 : DB} {rs : List ContributionRange}
    {fs : List (Int × Int)}
    (h : leftStep u S r backup db = Except.ok (db2, rs, fs)) :
    (¬ S - r.start_date > 0 ∧ db2 = db ∧ rs = [] ∧ fs = []) ∨
    (S - r.start_date > 0 ∧ ∃ nr,
      createWithContributions db u r.start_date (S - 1) backup = Except.ok (nr, db2) ∧
      rs = [nr] ∧ fs = [(nr.start_date, nr.end_date)]) := by
  unfold leftStep at h
  by_cases hc : S - r.start_date > 0
  · rw [if_pos hc] at h
    cases hcw : createWithContributions db u r.start_date (S - 1) backup with
    | error p => rw [hcw] at h; exact absurd h (by simp)
    | ok p =>
      obtain ⟨nr, dbp⟩ := p
      rw [hcw] at h
      simp only [Except.ok.injEq, Prod.mk.injEq] at h
      obtain ⟨h1, h2, h3⟩ := h
      refine Or.inr ⟨hc, nr, ?_, h2.symm, h3.symm⟩
      rw [← h1]
  · rw [if_neg hc] at h
    simp only [Except.ok.injEq, Prod.mk.injEq] at h
    obtain ⟨h1, h2, h3⟩ := h
    exact Or.inl ⟨hc, h1.symm, h2.symm, h3.symm⟩

/-- What a successful middle step did: nothing when the intersection is a single
day (`middleLen ≤ 0`), else one sub-range spanning the intersection with the
snapshot. -/
theorem middleStep_ok {u : Nat} {S E : Int} {r : ContributionRange}
    {backup : List (Nat × Nat)} {db db2 : DB} {rs : List ContributionRange}
    {fs : List (Int × Int)}
    (h : middleStep u S E r backup db = Except.ok (db2, rs, fs)) :
    (¬ middleLen S E r > 0 ∧ db2 = db ∧ rs = [] ∧ fs = []) ∨
    (middleLen S E r > 0 ∧ ∃ nr,
      createWithContributions db u (middleStart S r) (middleStart S r + middleLen S E r)
        backup = Except.ok (nr, db2) ∧
      rs = [nr] ∧ fs = [(nr.start_date, nr.end_date)]) := by
  unfold middleStep at h
  simp only [middleLen, middleStart]
  by_cases hc : min (r.end_date - (if r.start_date ≤ S then S else r.start_date))
      (E - (if r.start_date ≤ S then S else r.start_date)) > 0
  · rw [if_pos hc] at h
    cases hcw : createWithContributions db u
        (if r.start_date ≤ S then S else r.start_date)
        ((if r.start_date ≤ S then S else r.start_date) +
          min (r.end_date - (if r.start_date ≤ S then S else r.start_date))
            (E - (if r.start_date ≤ S then S else r.start_date))) backup with
    | error p => rw [hcw] at h; exact absurd h (by simp)
    | ok p =>
      obtain ⟨nr, dbp⟩ := p
      rw [hcw] at h
      simp only [Except.ok.injEq, Prod.mk.injEq] at h
      obtain ⟨h1, h2, h3⟩ := h
      refine Or.inr ⟨hc, nr, ?_, h2.symm, h3.symm⟩
      rw [← h1]
  · rw [if_neg hc] at h
    simp only [Except.ok.injEq, Prod.mk.injEq] at h
    obtain ⟨h1, h2, h3⟩ := h
    exact Or.inl ⟨hc, h1.symm, h2.symm, h3.symm⟩

/-- What a successful right step did: nothing when `r.end_date ≤ E`, else one
sub-range `[E+1, r.end_date]` with the snapshot. -/
theorem rightStep_ok {u : Nat} {E : Int} {r : ContributionRange}
    {backup : List (Nat × Nat)} {db db2 : DB} {rs : List ContributionRange}
    {fs : List (Int × Int)}
    (h : rightStep u E r backup db = Except.ok (db2, rs, fs)) :
    (¬ r.end_date - E > 0 ∧ db2 = db ∧ rs = [] ∧ fs = []) ∨
    (r.end_date - E > 0 ∧ ∃ nr,
      createWithContributions db u (E + 1) r.end_date backup = Except.ok (nr, db2) ∧
      rs = [nr] ∧ fs = [(nr.start_date, nr.end_date)]) := by
  unfold rightStep at h
  by_cases hc : r.end_date - E > 0
  · rw [if_pos hc] at h
    cases hcw : createWithContributions db u (E + 1) r.end_date backup with
    | error p => rw [hcw] at h; exact absurd h (by simp)
    | ok p =>
      obtain ⟨nr, dbp⟩ := p
      rw [hcw] at h
      simp only [Except.ok.injEq, Prod.mk.injEq] at h
      obtain ⟨h1, h2, h3⟩ := h
      refine Or.inr ⟨hc, nr, ?_, h2.symm, h3.symm⟩
      rw [← h1]
  · rw [if_neg hc] at h
    simp only [Except.ok.injEq, Prod.mk.injEq] at h
    obtain ⟨h1, h2, h3⟩ := h
    exact Or.inl ⟨hc, h1.symm, h2.symm, h3.symm⟩

/-- Decompose a successful split iteration: the deletions succeed and the three
steps run on the post-deletion state with the snapshot taken first. -/
theorem splitOne_ok {db : DB} {u : Nat} {S E : Int} {r : ContributionRange}
    {db2 : DB} {rs : List ContributionRange} {fs : List (Int × Int)}
    (h : splitOne db u S E r = Except.ok (db2, rs, fs)) :
    ∃ dbd, deleteRange (removeRangeContributions db r.id) r.id = Except.ok dbd ∧
      andThenStep (andThenStep (leftStep u S r (backupOf db r.id) dbd)
        (middleStep u S E r (backupOf db r.id)))
        (rightStep u E r (backupOf db r.id)) = Except.ok (db2, rs, fs) := by
  unfold splitOne at h
  dsimp only at h
  rw [backupOf]
  cases hd : deleteRange (removeRangeContributions db r.id) r.id with
  | error e0 => rw [hd] at h; exact absurd h (by simp)
  | ok dbd =>
    rw [hd] at h
    exact ⟨dbd, rfl, h⟩

/-- Decompose a successful split loop over a nonempty list. -/
theorem splitAll_cons_ok {u : Nat} {S E : Int} {r : ContributionRange}
    {rest : List ContributionRange} {db db2 : DB} {rs : List ContributionRange}
    {fs : List (Int × Int)}
    (h : splitAll u S E (r :: rest) db = Except.ok (db2, rs, fs)) :
    ∃ db1 rs1 fs1 rs2 fs2, splitOne db u S E r = Except.ok (db1, rs1, fs1) ∧
      splitAll u S E rest db1 = Except.ok (db2, rs2, fs2) ∧
      rs = rs1 ++ rs2 ∧ fs = fs1 ++ fs2 := by
  simp only [splitAll] at h
  cases h1 : splitOne db u S E r with
  | error p => rw [h1] at h; exact absurd h (by simp)
  | ok t =>
    obtain ⟨db1, rs1, fs1⟩ := t
    rw [h1] at h
    dsimp only at h
    cases h2 : splitAll u S E rest db1 with
    | error p => rw [h2] at h; exact absurd h (by simp)
    | ok t2 =>
      obtain ⟨dbx, rs2, fs2⟩ := t2
      rw [h2] at h
      simp only [Except.ok.injEq, Prod.mk.injEq] at h
      obtain ⟨ha, hb, hc⟩ := h
      refine ⟨db1, rs1, fs1, rs2, fs2, rfl, ?_, hb.symm, hc.symm⟩
      rw [← ha]
      exact h2

/-- The empty split loop is a no-op. -/
theorem splitAll_nil_ok {u : Nat} {S E : Int} {db db2 : DB}
    {rs : List ContributionRange} {fs : List (Int × Int)}
    (h : splitAll u S E [] db = Except.ok (db2, rs, fs)) :
    db2 = db ∧ rs = [] ∧ fs = [] := by
  simp only [splitAll] at h
  simp only [Except.ok.injEq, Prod.mk.injEq] at h
  exact ⟨h.1.symm, h.2.1.symm, h.2.2.symm⟩

/-- Decompose a successful gap-filling pass over a nonempty gap list. -/
theorem createGaps_cons_ok {u : Nat} {g : Int × Int} {rest : List (Int × Int)}
    {db db2 : DB} {rs : List ContributionRange}
    (h : createGaps u (g :: rest) db = Except.ok (db2, rs)) :
    ∃ nr db1 rs1, createRange db u g.1 g.2 = Except.ok (nr, db1) ∧
      createGaps u rest db1 = Except.ok (db2, rs1) ∧ rs = nr :: rs1 := by
  simp only [createGaps] at h
  cases h1 : createRange db u g.1 g.2 with
  | error e0 => rw [h1] at h; exact absurd h (by simp)
  | ok p =>
    obtain ⟨nr, db1⟩ := p
    rw [h1] at h
    dsimp only at h
    cases h2 : createGaps u rest db1 with
    | error p2 => rw [h2] at h; exact absurd h (by simp)
    | ok t2 =>
      obtain ⟨dbx, rs1⟩ := t2
      rw [h2] at h
      simp only [Except.ok.injEq, Prod.mk.injEq] at h
      obtain ⟨ha, hb⟩ := h
      refine ⟨nr, db1, rs1, rfl, ?_, hb.symm⟩
      rw [← ha]
      exact h2

/-- The empty gap-filling pass is a no-op. -/
theorem createGaps_nil_ok {u : Nat} {db db2 : DB} {rs : List ContributionRange}
    (h : createGaps u [] db = Except.ok (db2, rs)) : db2 = db ∧ rs = [] := by
  simp only [createGaps] at h
  simp only [Except.ok.injEq, Prod.mk.injEq] at h
  exact ⟨h.1.symm, h.2.symm⟩

/-- Every span one split iteration appends to `filled_ranges` is a left leftover
(ending before S), a right leftover (starting after E), or the span of a range
it appended to `ranges`. -/
theorem splitOne_spans {db : DB} {u : Nat} {S E : Int} {r : ContributionRange}
    {db2 : DB} {rs : List ContributionRange} {fs : List (Int × Int)}
    (h : splitOne db u S E r = Except.ok (db2, rs, fs)) :
    ∀ pq ∈ fs, pq.2 < S ∨ E < pq.1 ∨
      ∃ rr ∈ rs, rr.start_date = pq.1 ∧ rr.end_date = pq.2 := by
  obtain ⟨dbd, hd, hsteps⟩ := splitOne_ok h
  obtain ⟨dbB, rsB, fsB, rs3, fs3, hAB, hR, hrs, hfs⟩ := andThenStep_ok hsteps
  obtain ⟨dbA, rs1, fs1, rs2, fs2, hL, hM, hrsB, hfsB⟩ := andThenStep_ok hAB
  subst hrs hfs hrsB hfsB
  intro pq hpq
  rcases List.mem_append.mp hpq with hpq12 | hpq3
  · rcases List.mem_append.mp hpq12 with hpq1 | hpq2
    · rcases leftStep_ok hL with ⟨_, _, _, hfs1⟩ | ⟨_, nr, hcw, _, hfs1⟩
      · rw [hfs1] at hpq1
        exact absurd hpq1 (List.not_mem_nil pq)
      · rw [hfs1, List.mem_singleton] at hpq1
        obtain ⟨dbm, hcr, _⟩ := createWithContributions_ok hcw
        obtain ⟨_, _, _, hEnd, _⟩ := createRange_ok hcr
        left
        rw [hpq1]
        simp only [hEnd]
        omega
    · rcases middleStep_ok hM with ⟨_, _, _, hfs2⟩ | ⟨_, nr, hcw, hrs2, hfs2⟩
      · rw [hfs2] at hpq2
        exact absurd hpq2 (List.not_mem_nil pq)
      · rw [hfs2, List.mem_singleton] at hpq2
        right
        right
        refine ⟨nr, ?_, by rw [hpq2], by rw [hpq2]⟩
        rw [List.mem_append]
        left
        rw [List.mem_append, hrs2]
        right
        exact List.mem_singleton.mpr rfl
  · rcases rightStep_ok hR with ⟨_, _, _, hfs3⟩ | ⟨_, nr, hcw, _, hfs3⟩
    · rw [hfs3] at hpq3
      exact absurd hpq3 (List.not_mem_nil pq)
    · rw [hfs3, List.mem_singleton] at hpq3
      obtain ⟨dbm, hcr, _⟩ := createWithContributions_ok hcw
      obtain ⟨_, _, hStart, _⟩ := createRange_ok hcr
      right
      left
      rw [hpq3]
      simp only [hStart]
      omega

/-- Every span the split loop records in `filled_ranges` is a leftover outside
`[S, E]` or the span of a range in `result`. -/
theorem splitAll_spans (u : Nat) (S E : Int) : ∀ (l : List ContributionRange)
    (db db2 : DB) (rs : List ContributionRange) (fs : List (Int × Int)),
    splitAll u S E l db = Except.ok (db2, rs, fs) →
    ∀ pq ∈ fs, pq.2 < S ∨ E < pq.1 ∨
      ∃ rr ∈ rs, rr.start_date = pq.1 ∧ rr.end_date = pq.2 := by
  intro l
  induction l with
  | nil =>
    intro db db2 rs fs h pq hpq
    obtain ⟨_, _, hfs⟩ := splitAll_nil_ok h
    rw [hfs] at hpq
    exact absurd hpq (List.not_mem_nil pq)
  | cons r rest ih =>
    intro db db2 rs fs h pq hpq
    obtain ⟨db1, rs1, fs1, rs2, fs2, h1, h2, hrs, hfs⟩ := splitAll_cons_ok h
    subst hrs hfs
    rcases List.mem_append.mp hpq with hpq1 | hpq2
    · rcases splitOne_spans h1 pq hpq1 with ha | hb | ⟨rr, hrr, hsp⟩
      · exact Or.inl ha
      · exact Or.inr (Or.inl hb)
      · exact Or.inr (Or.inr ⟨rr, List.mem_append.mpr (Or.inl hrr), hsp⟩)
    · rcases ih db1 db2 rs2 fs2 h2 pq hpq2 with ha | hb | ⟨rr, hrr, hsp⟩
      · exact Or.inl ha
      · exact Or.inr (Or.inl hb)
      · exact Or.inr (Or.inr ⟨rr, List.mem_append.mpr (Or.inr hrr), hsp⟩)

/-- Every requested gap ends up as the span of a created gap range. -/
theorem createGaps_spans (u : Nat) : ∀ (gaps : List (Int × Int)) (db db2 : DB)
    (rs : List ContributionRange),
    createGaps u gaps db = Except.ok (db2, rs) →
    ∀ g ∈ gaps, ∃ r ∈ rs, r.start_date = g.1 ∧ r.end_date = g.2 := by
  intro gaps
  induction gaps with
  | nil =>
    intro db db2 rs h g hg
    exact absurd hg (List.not_mem_nil g)
  | cons g0 rest ih =>
    intro db db2 rs h g hg
    obtain ⟨nr, db1, rs1, h1, h2, hrs⟩ := createGaps_cons_ok h
    obtain ⟨_, _, hS, hE, _⟩ := createRange_ok h1
    subst hrs
    rcases List.mem_cons.mp hg with hg' | hg'
    · exact ⟨nr, List.mem_cons_self nr rs1, by rw [hg', hS], by rw [hg', hE]⟩
    · obtain ⟨r, hr, hsp⟩ := ih db1 db2 rs1 h2 g hg'
      exact ⟨r, List.mem_cons_of_mem nr hr, hsp⟩

/-- Decompose a successful `add_new_range` into its phases. -/
theorem add_new_range_ok {db : DB} {u : Nat} {S E : Int}
    {res : List ContributionRange}
    (h : (add_new_range db u S E).2 = Except.ok res) :
    (get_overlapping_ranges db u S E = [] ∧
      ∃ nr db2, createRange db u S E = Except.ok (nr, db2) ∧ res = [nr] ∧
        (add_new_range db u S E).1 = db2) ∨
    (get_overlapping_ranges db u S E ≠ [] ∧
      ∃ db2 result filled db3 gapRanges,
        splitAll u S E (get_overlapping_ranges db u S E) db =
          Except.ok (db2, result, filled) ∧
        createGaps u (find_gaps filled S E) db2 = Except.ok (db3, gapRanges) ∧
        res = sortByStart (result ++ gapRanges) ∧
        (add_new_range db u S E).1 = db3) := by
  unfold add_new_range at h ⊢
  by_cases hemp : (get_overlapping_ranges db u S E).isEmpty = true
  · rw [if_pos hemp] at h ⊢
    cases hc : createRange db u S E with
    | error e0 =>
      rw [hc] at h
      exact absurd h (by simp)
    | ok p =>
      obtain ⟨nr, db2⟩ := p
      rw [hc] at h
      dsimp only at h
      simp only [Except.ok.injEq] at h
      exact Or.inl ⟨List.isEmpty_iff.mp hemp, nr, db2, rfl, h.symm, rfl⟩
  · rw [if_neg hemp] at h ⊢
    have hne : get_overlapping_ranges db u S E ≠ [] := by
      intro hnil
      exact hemp (by rw [hnil]; rfl)
    cases hs : splitAll u S E (get_overlapping_ranges db u S E) db with
    | error p =>
      obtain ⟨e0, dbe⟩ := p
      rw [hs] at h
      exact absurd h (by simp)
    | ok t =>
      obtain ⟨db2, result, filled⟩ := t
      rw [hs] at h
      dsimp only at h ⊢
      cases hg : createGaps u (find_gaps filled S E) db2 with
      | error p =>
        obtain ⟨e0, dbe⟩ := p
        rw [hg] at h
        exact absurd h (by simp)
      | ok t2 =>
        obtain ⟨db3, gapRanges⟩ := t2
        rw [hg] at h
        simp only [Except.ok.injEq] at h
        exact Or.inr ⟨hne, db2, result, filled, db3, gapRanges, rfl, hg, h.symm, rfl⟩

/-- C1 (amended theorem).  A successful `add_new_range(u, S, E)` returns a
sequence of DateRanges ordered by start date whose spans cover every day of
`[S, E]` with no internal gaps; the left/right leftover ranges created while
splitting partially-overlapped ranges are part of the returned sequence (shown
concretely in the counterexample), so the union may extend beyond `[S, E]`. -/
theorem C1_amended (db : DB) (u : Nat) (S E : Int) (res : List ContributionRange)
    (h : (add_new_range db u S E).2 = Except.ok res) :
    res.Pairwise (fun a b => a.start_date ≤ b.start_date) ∧
    ∀ d : Int, S ≤ d → d ≤ E → ∃ r ∈ res, r.start_date ≤ d ∧ d ≤ r.end_date := by
  rcases add_new_range_ok h with
    ⟨hemp, nr, db2, hc, hres, _⟩ |
    ⟨hne, db2, result, filled, db3, gapRanges, hs, hg, hres, _⟩
  · obtain ⟨_, _, hS, hE, _⟩ := createRange_ok hc
    subst hres
    refine ⟨List.pairwise_singleton .., ?_⟩
    intro d h1 h2
    exact ⟨nr, List.mem_singleton.mpr rfl, by rw [hS]; exact h1, by rw [hE]; exact h2⟩
  · subst hres
    refine ⟨sortByStart_pairwise _, ?_⟩
    intro d h1 h2
    rcases find_gaps_cover (L := filled) h1 h2 with ⟨p, hp, hcov⟩ | ⟨g, hgm, hcov⟩
    · rcases splitAll_spans u S E _ db db2 result filled hs p hp with hlt | hgt | ⟨rr, hrr, hsp⟩
      · omega
      · omega
      · refine ⟨rr, mem_sortByStart.mpr (List.mem_append.mpr (Or.inl hrr)), ?_, ?_⟩
        · rw [hsp.1]; exact hcov.1
        · rw [hsp.2]; exact hcov.2
    · obtain ⟨rr, hrr, hsp⟩ := createGaps_spans u (find_gaps filled S E) db2 db3 gapRanges hg g hgm
      refine ⟨rr, mem_sortByStart.mpr (List.mem_append.mpr (Or.inr hrr)), ?_, ?_⟩
      · rw [hsp.1]; exact hcov.1
      · rw [hsp.2]; exact hcov.2

/-- C1 (witness): through the theorem at `dbSplit`, the result of splitting
`[0, 40]` under the claim `[10, 20]` covers day 15. -/
theorem C1_amended_witness :
    ∃ r ∈ [(⟨3, 0, 0, 9⟩ : ContributionRange), ⟨5, 0, 10, 20⟩, ⟨7, 0, 21, 40⟩],
      r.start_date ≤ 15 ∧ (15 : Int) ≤ r.end_date := by
  have h := C1_amended dbSplit 0 10 20
    [⟨3, 0, 0, 9⟩, ⟨5, 0, 10, 20⟩, ⟨7, 0, 21, 40⟩] (by decide)
  exact h.2 15 (by decide) (by decide)

/-- `deleteRange`'s successful output, explicitly. -/
theorem deleteRange_ok {db : DB} {rid : Nat} {db2 : DB}
    (h : deleteRange db rid = Except.ok db2) :
    db2 = ⟨db.ranges.filter (fun r => !(r.id == rid)), db.contributions,
      db.goals, db.transactions, db.nextId⟩ := by
  unfold deleteRange at h
  by_cases hemp : (rangeContributions db rid).isEmpty = true
  · rw [if_pos hemp] at h
    cases h
    rfl
  · rw [if_neg hemp] at h
    exact absurd h (by simp)

/-- Recreating a snapshot only appends contributions — all attached to the given
range — and leaves the other tables alone; every snapshot pair ends up present. -/
theorem add_contributions_post : ∀ (backup : List (Nat × Nat)) (rid : Nat) (db db2 : DB),
    add_contributions db backup rid = Except.ok db2 →
    db2.ranges = db.ranges ∧ db2.goals = db.goals ∧ db2.transactions = db.transactions ∧
    db.nextId ≤ db2.nextId ∧
    (∃ extra, db2.contributions = db.contributions ++ extra ∧
      ∀ c ∈ extra, c.date_range = rid) ∧
    (∀ gp ∈ backup, ∃ c ∈ db2.contributions,
      c.date_range = rid ∧ c.goal = gp.1 ∧ c.percentage = gp.2) := by
  intro backup
  induction backup with
  | nil =>
    intro rid db db2 h
    simp only [add_contributions] at h
    cases h
    exact ⟨rfl, rfl, rfl, le_refl _, ⟨[], by simp, by simp⟩, by simp⟩
  | cons gp rest ih =>
    intro rid db db2 h
    simp only [add_contributions] at h
    cases hc : createContribution db gp.1 gp.2 rid none with
    | error e0 => rw [hc] at h; exact absurd h (by simp)
    | ok p =>
      obtain ⟨c, dbm⟩ := p
      rw [hc] at h
      obtain ⟨hcid, hcam, hcp, hcg, hcr, hrng, hcon, hgoals, htr, hnext, _, _⟩ :=
        createContribution_ok hc
      obtain ⟨ir, ig, it, inx, ⟨extra, hext, hextr⟩, iall⟩ := ih rid dbm db2 h
      have hcmem : c ∈ db2.contributions := by
        rw [hext, hcon]
        exact List.mem_append_left _ (List.mem_append_right _ (List.mem_singleton.mpr rfl))
      refine ⟨by rw [ir, hrng], by rw [ig, hgoals], by rw [it, htr], by omega,
        ⟨[c] ++ extra, ?_, ?_⟩, ?_⟩
      · rw [hext, hcon, List.append_assoc]
      · intro x hx
        rcases List.mem_append.mp hx with h' | h'
        · rw [List.mem_singleton] at h'
          rw [h']
          exact hcr
        · exact hextr x h'
      · intro gp2 hgp2
        rcases List.mem_cons.mp hgp2 with h' | h'
        · refine ⟨c, hcmem, hcr, ?_, ?_⟩
          · rw [h']
            exact hcg
          · rw [h']
            exact hcp
        · exact iall gp2 h'

/-- A successful `createWithContributions` appends exactly one range carrying
(at least) every snapshot pair, and appends only contributions attached to it. -/
theorem createWithContributions_post {db : DB} {u : Nat} {a b : Int}
    {backup : List (Nat × Nat)} {nr : ContributionRange} {db2 : DB}
    (h : createWithContributions db u a b backup = Except.ok (nr, db2)) :
    nr.id = db.nextId ∧ nr.user = u ∧ nr.start_date = a ∧ nr.end_date = b ∧
    db2.ranges = db.ranges ++ [nr] ∧ db2.goals = db.goals ∧
    db2.transactions = db.transactions ∧ db.nextId < db2.nextId ∧
    (∃ extra, db2.contributions = db.contributions ++ extra ∧
      ∀ c ∈ extra, c.date_range = nr.id) ∧
    (∀ gp ∈ backup, ∃ c ∈ db2.contributions,
      c.date_range = nr.id ∧ c.goal = gp.1 ∧ c.percentage = gp.2) := by
  obtain ⟨dbm, hcr, hac⟩ := createWithContributions_ok h
  obtain ⟨h1, h2, h3, h4, h5, h6, h7, h8, h9, _, _⟩ := createRange_ok hcr
  obtain ⟨p1, p2, p3, p4, ⟨extra, hext, hextr⟩, p6⟩ :=
    add_contributions_post backup nr.id dbm db2 hac
  exact ⟨h1, h2, h3, h4, by rw [p1, h5], by rw [p2, h7], by rw [p3, h8], by omega,
    ⟨extra, by rw [hext, h6], hextr⟩, p6⟩

/-- What a successful left step contributes to the state: monotone growth plus,
when the left leftover is due, its range with the whole snapshot. -/
theorem leftStep_post {u : Nat} {S : Int} {r : ContributionRange}
    {backup : List (Nat × Nat)} {db db2 : DB} {rs : List ContributionRange}
    {fs : List (Int × Int)}
    (h : leftStep u S r backup db = Except.ok (db2, rs, fs)) :
    (∀ x ∈ db.ranges, x ∈ db2.ranges) ∧ db.nextId ≤ db2.nextId ∧
    (∃ extra, db2.contributions = db.contributions ++ extra ∧
      ∀ c ∈ extra, db.nextId ≤ c.date_range) ∧
    (S - r.start_date > 0 →
      createdWithBackup db2 db.nextId r.start_date (S - 1) backup) := by
  rcases leftStep_ok h with ⟨hc, hdb, _, _⟩ | ⟨hc, nr, hcw, _, _⟩
  · subst hdb
    exact ⟨fun x hx => hx, le_refl _, ⟨[], by simp, by simp⟩, fun hcon => absurd hcon hc⟩
  · obtain ⟨h1, h2, h3, h4, h5, h6, h7, h8, ⟨extra, hext, hextr⟩, hall⟩ :=
      createWithContributions_post hcw
    refine ⟨?_, by omega, ⟨extra, hext, ?_⟩, ?_⟩
    · intro x hx
      rw [h5]
      exact List.mem_append_left _ hx
    · intro c hcm
      rw [hextr c hcm, h1]
    · intro _
      exact ⟨nr, by rw [h5]; exact List.mem_append_right _ (List.mem_singleton.mpr rfl),
        by omega, h3, h4, hall⟩

/-- What a successful middle step contributes to the state. -/
theorem middleStep_post {u : Nat} {S E : Int} {r : ContributionRange}
    {backup : List (Nat × Nat)} {db db2 : DB} {rs : List ContributionRange}
    {fs : List (Int × Int)}
    (h : middleStep u S E r backup db = Except.ok (db2, rs, fs)) :
    (∀ x ∈ db.ranges, x ∈ db2.ranges) ∧ db.nextId ≤ db2.nextId ∧
    (∃ extra, db2.contributions = db.contributions ++ extra ∧
      ∀ c ∈ extra, db.nextId ≤ c.date_range) ∧
    (middleLen S E r > 0 →
      createdWithBackup db2 db.nextId (middleStart S r)
        (middleStart S r + middleLen S E r) backup) := by
  rcases middleStep_ok h with ⟨hc, hdb, _, _⟩ | ⟨hc, nr, hcw, _, _⟩
  · subst hdb
    exact ⟨fun x hx => hx, le_refl _, ⟨[], by simp, by simp⟩, fun hcon => absurd hcon hc⟩
  · obtain ⟨h1, h2, h3, h4, h5, h6, h7, h8, ⟨extra, hext, hextr⟩, hall⟩ :=
      createWithContributions_post hcw
    refine ⟨?_, by omega, ⟨extra, hext, ?_⟩, ?_⟩
    · intro x hx
      rw [h5]
      exact List.mem_append_left _ hx
    · intro c hcm
      rw [hextr c hcm, h1]
    · intro _
      exact ⟨nr, by rw [h5]; exact List.mem_append_right _ (List.mem_singleton.mpr rfl),
        by omega, h3, h4, hall⟩

/-- What a successful right step contributes to the state. -/
theorem rightStep_post {u : Nat} {E : Int} {r : ContributionRange}
    {backup : List (Nat × Nat)} {db db2 : DB} {rs : List ContributionRange}
    {fs : List (Int × Int)}
    (h : rightStep u E r backup db = Except.ok (db2, rs, fs)) :
    (∀ x ∈ db.ranges, x ∈ db2.ranges) ∧ db.nextId ≤ db2.nextId ∧
    (∃ extra, db2.contributions = db.contributions ++ extra ∧
      ∀ c ∈ extra, db.nextId ≤ c.date_range) ∧
    (r.end_date - E > 0 →
      createdWithBackup db2 db.nextId (E + 1) r.end_date backup) := by
  rcases rightStep_ok h with ⟨hc, hdb, _, _⟩ | ⟨hc, nr, hcw, _, _⟩
  · subst hdb
    exact ⟨fun x hx => hx, le_refl _, ⟨[], by simp, by simp⟩, fun hcon => absurd hcon hc⟩
  · obtain ⟨h1, h2, h3, h4, h5, h6, h7, h8, ⟨extra, hext, hextr⟩, hall⟩ :=
      createWithContributions_post hcw
    refine ⟨?_, by omega, ⟨extra, hext, ?_⟩, ?_⟩
    · intro x hx
      rw [h5]
      exact List.mem_append_left _ hx
    · intro c hcm
      rw [hextr c hcm, h1]
    · intro _
      exact ⟨nr, by rw [h5]; exact List.mem_append_right _ (List.mem_singleton.mpr rfl),
        by omega, h3, h4, hall⟩

/-- `createdWithBackup` survives monotone growth of the tables and weakening of
the id bound. -/
theorem createdWithBackup_mono {db db2 : DB} {n n2 : Nat} {a b : Int}
    {backup : List (Nat × Nat)}
    (hr : ∀ x ∈ db.ranges, x ∈ db2.ranges)
    (hc : ∀ x ∈ db.contributions, x ∈ db2.contributions)
    (hn : n2 ≤ n) (h : createdWithBackup db n a b backup) :
    createdWithBackup db2 n2 a b backup := by
  obtain ⟨L, hL, hid, hsa, hsb, hall⟩ := h
  refine ⟨L, hr L hL, by omega, hsa, hsb, ?_⟩
  intro gp hgp
  obtain ⟨c, hcm, hf⟩ := hall gp hgp
  exact ⟨c, hc c hcm, hf⟩

/-- What one successful split iteration does to the state: ranges other than the
split one survive, removed contributions are exactly those of the split range,
appended contributions sit on fresh ranges, and each due sub-range (left when
`r.start < S`, middle when the intersection spans at least two days, right when
`r.end > E`) exists carrying the whole snapshot. -/
theorem splitOne_post {db : DB} {u : Nat} {S E : Int} {r : ContributionRange}
    {db2 : DB} {rs : List ContributionRange} {fs : List (Int × Int)}
    (h : splitOne db u S E r = Except.ok (db2, rs, fs)) :
    db.nextId ≤ db2.nextId ∧
    (∀ x ∈ db.ranges, x.id ≠ r.id → x ∈ db2.ranges) ∧
    (∃ extra, db2.contributions =
      (db.contributions.filter (fun c => !(c.date_range == r.id))) ++ extra ∧
      ∀ c ∈ extra, db.nextId ≤ c.date_range) ∧
    (S - r.start_date > 0 →
      createdWithBackup db2 db.nextId r.start_date (S - 1) (backupOf db r.id)) ∧
    (middleLen S E r > 0 →
      createdWithBackup db2 db.nextId (middleStart S r)
        (middleStart S r + middleLen S E r) (backupOf db r.id)) ∧
    (r.end_date - E > 0 →
      createdWithBackup db2 db.nextId (E + 1) r.end_date (backupOf db r.id)) := by
  obtain ⟨dbd, hd, hsteps⟩ := splitOne_ok h
  have hdd := deleteRange_ok hd
  have hdr : dbd.ranges = db.ranges.filter (fun x => !(x.id == r.id)) := by
    rw [hdd]
    simp [removeRangeContributions]
  have hdc : dbd.contributions = db.contributions.filter (fun c => !(c.date_range == r.id)) := by
    rw [hdd]
    simp [removeRangeContributions]
  have hdn : dbd.nextId = db.nextId := by
    rw [hdd]
    simp [removeRangeContributions]
  obtain ⟨dbB, rsB, fsB, rs3, fs3, hAB, hR, _, _⟩ := andThenStep_ok hsteps
  obtain ⟨dbA, rs1, fs1, rs2, fs2, hL, hM, _, _⟩ := andThenStep_ok hAB
  obtain ⟨Lr, Ln, ⟨eL, hLe, hLb⟩, Lc⟩ := leftStep_post hL
  obtain ⟨Mr, Mn, ⟨eM, hMe, hMb⟩, Mc⟩ := middleStep_post hM
  obtain ⟨Rr, Rn, ⟨eR, hRe, hRb⟩, Rc⟩ := rightStep_post hR
  have hAmono : ∀ x ∈ dbA.contributions, x ∈ db2.contributions := by
    intro x hx
    rw [hRe, hMe]
    exact List.mem_append_left _ (List.mem_append_left _ hx)
  have hBmono : ∀ x ∈ dbB.contributions, x ∈ db2.contributions := by
    intro x hx
    rw [hRe]
    exact List.mem_append_left _ hx
  refine ⟨by omega, ?_, ?_, ?_, ?_, ?_⟩
  · intro x hx hne
    refine Rr x (Mr x (Lr x ?_))
    rw [hdr]
    refine List.mem_filter.mpr ⟨hx, ?_⟩
    simp only [Bool.not_eq_true', beq_eq_false_iff_ne, ne_eq]
    exact hne
  · refine ⟨eL ++ eM ++ eR, ?_, ?_⟩
    · rw [hRe, hMe, hLe, hdc]
      simp [List.append_assoc]
    · intro c hcm
      rcases List.mem_append.mp hcm with h1 | h2
      · rcases List.mem_append.mp h1 with h3 | h4
        · have := hLb c h3
          omega
        · have := hMb c h4
          omega
      · have := hRb c h2
        omega
  · intro hcond
    exact createdWithBackup_mono (fun x hx => Rr x (Mr x hx)) hAmono
      (by omega) (Lc hcond)
  · intro hcond
    exact createdWithBackup_mono Rr hBmono (by omega) (Mc hcond)
  · intro hcond
    exact createdWithBackup_mono (fun x hx => hx) (fun x hx => hx)
      (by omega) (Rc hcond)

/-- Filtering for one range commutes past filtering another range away. -/
theorem filter_filter_ne (rid xid : Nat) (hne : rid ≠ xid) :
    ∀ l : List GoalContribution,
    (l.filter (fun c => !(c.date_range == xid))).filter (fun c => c.date_range == rid) =
    l.filter (fun c => c.date_range == rid) := by
  intro l
  induction l with
  | nil => rfl
  | cons c t ih =>
    by_cases hx : c.date_range = xid
    · have hr : ¬ c.date_range = rid := by omega
      simp only [List.filter_cons]
      rw [if_neg (by simp [hx]), if_neg (by simp [hr]), ih]
    · by_cases hr : c.date_range = rid
      · simp only [List.filter_cons]
        rw [if_pos (by simp [hx]), List.filter_cons, if_pos (by simp [hr]),
          if_pos (by simp [hr]), ih]
      · simp only [List.filter_cons]
        rw [if_pos (by simp [hx]), List.filter_cons, if_neg (by simp [hr]),
          if_neg (by simp [hr]), ih]

/-- A split iteration of another range with a smaller id leaves a range's
contribution list untouched. -/
theorem splitOne_rangeContributions {db : DB} {u : Nat} {S E : Int}
    {x : ContributionRange} {db2 : DB} {rs : List ContributionRange}
    {fs : List (Int × Int)} {rid : Nat}
    (h : splitOne db u S E x = Except.ok (db2, rs, fs))
    (hne : rid ≠ x.id) (hlt : rid < db.nextId) :
    rangeContributions db2 rid = rangeContributions db rid := by
  obtain ⟨_, _, ⟨extra, hext, hextb⟩, _⟩ := splitOne_post h
  rw [rangeContributions, hext, List.filter_append, filter_filter_ne rid x.id hne]
  have hnil : extra.filter (fun c => c.date_range == rid) = [] := by
    apply List.filter_eq_nil_iff.mpr
    intro c hc
    have := hextb c hc
    simp only [beq_iff_eq]
    omega
  rw [hnil, List.append_nil]
  rfl

/-- A created sub-range (with its snapshot contributions) survives the split
iterations of ranges whose ids lie below its id bound. -/
theorem splitAll_preserves (u : Nat) (S E : Int) : ∀ (l : List ContributionRange)
    (db db2 : DB) (rs : List ContributionRange) (fs : List (Int × Int)) (n : Nat)
    (a b : Int) (backup : List (Nat × Nat)),
    splitAll u S E l db = Except.ok (db2, rs, fs) → (∀ y ∈ l, y.id < n) →
    createdWithBackup db n a b backup → createdWithBackup db2 n a b backup := by
  intro l
  induction l with
  | nil =>
    intro db db2 rs fs n a b backup h _ hcb
    obtain ⟨hdb, _, _⟩ := splitAll_nil_ok h
    rw [hdb]
    exact hcb
  | cons x rest ih =>
    intro db db2 rs fs n a b backup h hlt hcb
    obtain ⟨db1, rs1, fs1, rs2, fs2, h1, h2, _, _⟩ := splitAll_cons_ok h
    obtain ⟨hn1, hpr, ⟨extra, hext, _⟩, _⟩ := splitOne_post h1
    have hxlt : x.id < n := hlt x (List.mem_cons_self x rest)
    have hcb1 : createdWithBackup db1 n a b backup := by
      obtain ⟨L, hL, hid, hsa, hsb, hall⟩ := hcb
      refine ⟨L, hpr L hL (by omega), hid, hsa, hsb, ?_⟩
      intro gp hgp
      obtain ⟨c, hcm, hcdr, hcg, hcp⟩ := hall gp hgp
      refine ⟨c, ?_, hcdr, hcg, hcp⟩
      rw [hext]
      refine List.mem_append_left _ (List.mem_filter.mpr ⟨hcm, ?_⟩)
      simp only [Bool.not_eq_true', beq_eq_false_iff_ne, ne_eq]
      omega
    exact ih db1 db2 rs2 fs2 n a b backup h2
      (fun y hy => hlt y (List.mem_cons_of_mem x hy)) hcb1

/-- Every range of the overlap list, once processed by a successful split loop,
leaves each of its due sub-ranges in the final state carrying its snapshot. -/
theorem splitAll_creates (u : Nat) (S E : Int) : ∀ (l : List ContributionRange)
    (db db2 : DB) (rs : List ContributionRange) (fs : List (Int × Int)),
    splitAll u S E l db = Except.ok (db2, rs, fs) →
    (l.map (fun x => x.id)).Nodup → (∀ y ∈ l, y.id < db.nextId) →
    ∀ r ∈ l,
      (S - r.start_date > 0 →
        createdWithBackup db2 0 r.start_date (S - 1) (backupOf db r.id)) ∧
      (middleLen S E r > 0 →
        createdWithBackup db2 0 (middleStart S r)
          (middleStart S r + middleLen S E r) (backupOf db r.id)) ∧
      (r.end_date - E > 0 →
        createdWithBackup db2 0 (E + 1) r.end_date (backupOf db r.id)) := by
  intro l
  induction l with
  | nil =>
    intro db db2 rs fs _ _ _ r hr
    exact absurd hr (List.not_mem_nil r)
  | cons x rest ih =>
    intro db db2 rs fs h hnd hlt r hr
    obtain ⟨db1, rs1, fs1, rs2, fs2, h1, h2, _, _⟩ := splitAll_cons_ok h
    rw [List.map_cons, List.nodup_cons] at hnd
    obtain ⟨hxnotin, hndrest⟩ := hnd
    obtain ⟨hn1, _, _, hcl, hcm, hcr⟩ := splitOne_post h1
    have hrest_lt : ∀ y ∈ rest, y.id < db.nextId :=
      fun y hy => hlt y (List.mem_cons_of_mem x hy)
    rcases List.mem_cons.mp hr with hrx | hrrest
    · subst hrx
      have hpres := fun a b backup hcb => splitAll_preserves u S E rest db1 db2 rs2 fs2
        db.nextId a b backup h2 hrest_lt hcb
      refine ⟨?_, ?_, ?_⟩
      · intro hcond
        exact createdWithBackup_mono (fun z hz => hz) (fun z hz => hz)
          (Nat.zero_le _) (hpres _ _ _ (hcl hcond))
      · intro hcond
        exact createdWithBackup_mono (fun z hz => hz) (fun z hz => hz)
          (Nat.zero_le _) (hpres _ _ _ (hcm hcond))
      · intro hcond
        exact createdWithBackup_mono (fun z hz => hz) (fun z hz => hz)
          (Nat.zero_le _) (hpres _ _ _ (hcr hcond))
    · have hrne : r.id ≠ x.id := by
        intro heq
        exact hxnotin (heq ▸ List.mem_map_of_mem (fun z => z.id) hrrest)
      have hbk : backupOf db1 r.id = backupOf db r.id := by
        rw [backupOf, backupOf,
          splitOne_rangeContributions h1 hrne (hlt r hr)]
      have := ih db1 db2 rs2 fs2 h2 hndrest
        (fun y hy => by have := hrest_lt y hy; omega) r hrrest
      rw [hbk] at this
      exact this

/-- Gap filling appends ranges and leaves the contributions table untouched. -/
theorem createGaps_post (u : Nat) : ∀ (gaps : List (Int × Int)) (db db2 : DB)
    (rs : List ContributionRange),
    createGaps u gaps db = Except.ok (db2, rs) →
    (∀ x ∈ db.ranges, x ∈ db2.ranges) ∧ db2.contributions = db.contributions := by
  intro gaps
  induction gaps with
  | nil =>
    intro db db2 rs h
    obtain ⟨hdb, _⟩ := createGaps_nil_ok h
    rw [hdb]
    exact ⟨fun x hx => hx, rfl⟩
  | cons g rest ih =>
    intro db db2 rs h
    obtain ⟨nr, db1, rs1, h1, h2, _⟩ := createGaps_cons_ok h
    obtain ⟨_, _, _, _, hrng, hcon, _⟩ := createRange_ok h1
    obtain ⟨ir, ic⟩ := ih db1 db2 rs1 h2
    constructor
    · intro x hx
      exact ir x (by rw [hrng]; exact List.mem_append_left _ hx)
    · rw [ic, hcon]

/-- C2 (amended theorem).  When `add_new_range(u, S, E)` succeeds on a database
with well-formed ids, every range `r` it overlapped has each of its DUE derived
sub-ranges — left `[r.start, S-1]` when `r.start < S`, middle when its day count
`middle_end` is strictly positive (a single-day middle is skipped, refuting
"always created"; see the counterexample), right `[E+1, r.end]` when `E < r.end`
— present in the persisted state, each carrying a contribution with the exact
same `(goal, percentage)` pair for every contribution `r` held before the call. -/
theorem C2_amended (db : DB) (u : Nat) (S E : Int) (res : List ContributionRange)
    (hnd : (db.ranges.map (fun x => x.id)).Nodup)
    (hlt : ∀ x ∈ db.ranges, x.id < db.nextId)
    (h : (add_new_range db u S E).2 = Except.ok res) :
    ∀ r ∈ get_overlapping_ranges db u S E,
      (S - r.start_date > 0 →
        createdWithBackup (add_new_range db u S E).1 0 r.start_date (S - 1)
          (backupOf db r.id)) ∧
      (middleLen S E r > 0 →
        createdWithBackup (add_new_range db u S E).1 0 (middleStart S r)
          (middleStart S r + middleLen S E r) (backupOf db r.id)) ∧
      (r.end_date - E > 0 →
        createdWithBackup (add_new_range db u S E).1 0 (E + 1) r.end_date
          (backupOf db r.id)) := by
  intro r hr
  rcases add_new_range_ok h with ⟨hemp, _⟩ |
    ⟨_, db2, result, filled, db3, gapRanges, hs, hg, _, hdb⟩
  · rw [hemp] at hr
    exact absurd hr (List.not_mem_nil r)
  · have hsubl : List.Sublist (get_overlapping_ranges db u S E) db.ranges := by
      rw [get_overlapping_ranges]
      exact List.filter_sublist _
    have hndov : ((get_overlapping_ranges db u S E).map (fun x => x.id)).Nodup :=
      List.Nodup.sublist (List.Sublist.map (fun x => x.id) hsubl) hnd
    have hltov : ∀ y ∈ get_overlapping_ranges db u S E, y.id < db.nextId :=
      fun y hy => hlt y (mem_get_overlapping_ranges.mp hy).1
    have hcr := splitAll_creates u S E (get_overlapping_ranges db u S E)
      db db2 result filled hs hndov hltov r hr
    obtain ⟨hgr, hgc⟩ := createGaps_post u (find_gaps filled S E) db2 db3 gapRanges hg
    have hmono : ∀ a b backup, createdWithBackup db2 0 a b backup →
        createdWithBackup db3 0 a b backup := fun a b backup hcb =>
      createdWithBackup_mono hgr (fun x hx => by rw [hgc]; exact hx)
        (le_refl 0) hcb
    rw [hdb]
    exact ⟨fun hc => hmono _ _ _ (hcr.1 hc), fun hc => hmono _ _ _ (hcr.2.1 hc),
      fun hc => hmono _ _ _ (hcr.2.2 hc)⟩

/-- C2 (witness).  On the one-range database `dbSplit` (range `[0, 40]` of user 0
carrying a 50% contribution), claiming `[10, 20]` succeeds and the theorem yields
the concrete conclusion for the overlapped range. -/
theorem C2_amended_witness :
    (dbSplit.ranges.map (fun x => x.id)).Nodup ∧
    (∀ x ∈ dbSplit.ranges, x.id < dbSplit.nextId) ∧
    (add_new_range dbSplit 0 10 20).2 =
      Except.ok [⟨3, 0, 0, 9⟩, ⟨5, 0, 10, 20⟩, ⟨7, 0, 21, 40⟩] ∧
    ∀ r ∈ get_overlapping_ranges dbSplit 0 10 20,
      (10 - r.start_date > 0 →
        createdWithBackup (add_new_range dbSplit 0 10 20).1 0 r.start_date (10 - 1)
          (backupOf dbSplit r.id)) ∧
      (middleLen 10 20 r > 0 →
        createdWithBackup (add_new_range dbSplit 0 10 20).1 0 (middleStart 10 r)
          (middleStart 10 r + middleLen 10 20 r) (backupOf dbSplit r.id)) ∧
      (r.end_date - 20 > 0 →
        createdWithBackup (add_new_range dbSplit 0 10 20).1 0 (20 + 1) r.end_date
          (backupOf dbSplit r.id)) :=
  ⟨by decide, by decide, by decide,
    C2_amended dbSplit 0 10 20 [⟨3, 0, 0, 9⟩, ⟨5, 0, 10, 20⟩, ⟨7, 0, 21, 40⟩]
      (by decide) (by decide) (by decide)⟩

/-- `find?` skips a prefix on which the predicate fails. -/
theorem find?_append_none {α : Type} (p : α → Bool) (l1 l2 : List α)
    (h : ∀ x ∈ l1, p x = false) : (l1 ++ l2).find? p = l2.find? p := by
  induction l1 with
  | nil => rfl
  | cons a tl ih =>
    rw [List.cons_append,
      List.find?_cons_of_neg (tl ++ l2) (by simp [h a (List.mem_cons_self a tl)])]
    exact ih (fun x hx => h x (List.mem_cons_of_mem a hx))

/-- Every recreated contribution points at the target range. -/
theorem recreated_date_range (rid : Nat) : ∀ (backup : List (Nat × Nat)) (n : Nat),
    ∀ c ∈ recreated n rid backup, c.date_range = rid := by
  intro backup
  induction backup with
  | nil => intro n c hc; exact absurd hc (List.not_mem_nil c)
  | cons gp rest ih =>
    intro n c hc
    rcases List.mem_cons.mp hc with h | h
    · rw [h]
    · exact ih (n + 1) c h

/-- Recreating a backup and reading the `(goal, percentage)` pairs back gives the
backup. -/
theorem recreated_map_pair (rid : Nat) : ∀ (backup : List (Nat × Nat)) (n : Nat),
    (recreated n rid backup).map (fun c => (c.goal, c.percentage)) = backup := by
  intro backup
  induction backup with
  | nil => intro n; rfl
  | cons gp rest ih =>
    intro n
    rw [recreated, List.map_cons, ih (n + 1)]

/-- `add_contributions` succeeds and appends exactly the recreated rows when the
target range resolves, every goal passes its guards for the range's span, and the
percentages fit under 100 together with what the range already carries. -/
theorem add_contributions_tile (rid : Nat) (dr : ContributionRange) :
    ∀ (backup : List (Nat × Nat)) (db : DB),
    findRange db rid = some dr →
    (∀ gp ∈ backup, ∃ g, findGoal db gp.1 = some g ∧ g.status ≠ GoalStatus.completed ∧
      g.start_date ≤ dr.start_date ∧ dr.end_date ≤ g.expected_completion_date) →
    total_percentage db rid + (backup.map (fun gp => gp.2)).sum ≤ 100 →
    add_contributions db backup rid = Except.ok
      ⟨db.ranges, db.contributions ++ recreated db.nextId rid backup, db.goals,
        db.transactions, db.nextId + backup.length⟩ := by
  intro backup
  induction backup with
  | nil =>
    intro db _ _ _
    rw [add_contributions]
    simp [recreated]
  | cons gp rest ih =>
    intro db hfr hg hsum
    simp only [List.map_cons, List.sum_cons] at hsum
    obtain ⟨g, hfg, hgs, hga, hgb⟩ := hg gp (List.mem_cons_self gp rest)
    have hcc : createContribution db gp.1 gp.2 rid none = Except.ok
        (⟨db.nextId, none, gp.2, gp.1, rid⟩,
         ⟨db.ranges, db.contributions ++ [⟨db.nextId, none, gp.2, gp.1, rid⟩],
          db.goals, db.transactions, db.nextId + 1⟩) := by
      unfold createContribution
      rw [hfg, hfr]
      dsimp only
      rw [if_neg hgs, if_neg (by omega), if_neg (by omega), if_neg (by omega)]
    rw [add_contributions, hcc]
    dsimp only
    have ht2 : total_percentage
        (⟨db.ranges, db.contributions ++ [⟨db.nextId, none, gp.2, gp.1, rid⟩],
          db.goals, db.transactions, db.nextId + 1⟩ : DB) rid =
        total_percentage db rid + gp.2 := by
      simp [total_percentage, rangeContributions]
    have hfr2 : findRange
        (⟨db.ranges, db.contributions ++ [⟨db.nextId, none, gp.2, gp.1, rid⟩],
          db.goals, db.transactions, db.nextId + 1⟩ : DB) rid = some dr := hfr
    have hg2 : ∀ gq ∈ rest, ∃ g, findGoal
        (⟨db.ranges, db.contributions ++ [⟨db.nextId, none, gp.2, gp.1, rid⟩],
          db.goals, db.transactions, db.nextId + 1⟩ : DB) gq.1 = some g ∧
        g.status ≠ GoalStatus.completed ∧
        g.start_date ≤ dr.start_date ∧ dr.end_date ≤ g.expected_completion_date :=
      fun gq hq => hg gq (List.mem_cons_of_mem gp hq)
    rw [ih _ hfr2 hg2 (by rw [ht2]; omega)]
    simp only [recreated, List.append_assoc, List.singleton_append, List.length_cons,
      Except.ok.injEq, DB.mk.injEq]
    exact ⟨trivial, trivial, trivial, trivial, by omega⟩

/-- `create_with_contributions` succeeds outright when the span is proper, nothing
overlaps it, the id counter is fresh, and the backup passes its guards: the new
range and its recreated contributions are appended. -/
theorem createWithContributions_success (db : DB) (u : Nat) (a b : Int)
    (backup : List (Nat × Nat))
    (hab : a < b)
    (hov : get_overlapping_ranges db u a b = [])
    (hid : ∀ r ∈ db.ranges, r.id < db.nextId)
    (hfresh : ∀ c ∈ db.contributions, c.date_range ≠ db.nextId)
    (hg : ∀ gp ∈ backup, ∃ g, findGoal db gp.1 = some g ∧
      g.status ≠ GoalStatus.completed ∧ g.start_date ≤ a ∧ b ≤ g.expected_completion_date)
    (hsum : (backup.map (fun gp => gp.2)).sum ≤ 100) :
    createWithContributions db u a b backup = Except.ok
      (⟨db.nextId, u, a, b⟩,
       ⟨db.ranges ++ [⟨db.nextId, u, a, b⟩],
        db.contributions ++ recreated (db.nextId + 1) db.nextId backup,
        db.goals, db.transactions, db.nextId + 1 + backup.length⟩) := by
  have hcr : createRange db u a b = Except.ok
      (⟨db.nextId, u, a, b⟩,
       ⟨db.ranges ++ [⟨db.nextId, u, a, b⟩], db.contributions, db.goals,
        db.transactions, db.nextId + 1⟩) := by
    unfold createRange
    rw [if_neg (by omega), if_pos (by rw [hov]; rfl)]
  have hfr : findRange
      (⟨db.ranges ++ [⟨db.nextId, u, a, b⟩], db.contributions, db.goals,
        db.transactions, db.nextId + 1⟩ : DB) db.nextId =
      some ⟨db.nextId, u, a, b⟩ := by
    unfold findRange
    dsimp only
    rw [find?_append_none _ db.ranges _ (fun r hr => by
      simp only [beq_eq_false_iff_ne, ne_eq]
      have := hid r hr
      omega)]
    rw [List.find?_cons_of_pos _ (by simp)]
  have htp : total_percentage
      (⟨db.ranges ++ [⟨db.nextId, u, a, b⟩], db.contributions, db.goals,
        db.transactions, db.nextId + 1⟩ : DB) db.nextId = 0 := by
    have hnil : rangeContributions
        (⟨db.ranges ++ [⟨db.nextId, u, a, b⟩], db.contributions, db.goals,
          db.transactions, db.nextId + 1⟩ : DB) db.nextId = [] := by
      apply List.filter_eq_nil_iff.mpr
      intro c hc
      simp only [beq_iff_eq]
      exact hfresh c hc
    rw [total_percentage, hnil]
    rfl
  unfold createWithContributions
  rw [hcr]
  dsimp only
  rw [add_contributions_tile db.nextId ⟨db.nextId, u, a, b⟩ backup _ hfr
    (fun gp hgp => hg gp hgp) (by rw [htp]; omega)]

/-- One split iteration on a range already lying inside `[S, E]` ("a tile"):
left and right are skipped, the middle recreates the tile's exact span with its
snapshotted contributions, and nothing else changes. -/
theorem splitOne_tile {db : DB} {u : Nat} {S E : Int} {t : ContributionRange}
    (hwf : WF db) (ht : t ∈ db.ranges) (htu : t.user = u)
    (hts : S ≤ t.start_date) (hte : t.end_date ≤ E)
    (hguard : ∀ c ∈ rangeContributions db t.id, contribGuardOk db t c = true) :
    splitOne db u S E t = Except.ok
      (⟨db.ranges.filter (fun x => !(x.id == t.id)) ++
          [⟨db.nextId, u, t.start_date, t.end_date⟩],
        db.contributions.filter (fun c => !(c.date_range == t.id)) ++
          recreated (db.nextId + 1) db.nextId (backupOf db t.id),
        db.goals, db.transactions, db.nextId + 1 + (backupOf db t.id).length⟩,
       [⟨db.nextId, u, t.start_date, t.end_date⟩],
       [(t.start_date, t.end_date)]) := by
  obtain ⟨w1, w2, w3, w4, w5, w6, w7⟩ := hwf
  have h1t := w1 t ht
  have hdisj : ∀ x ∈ db.ranges, x.id ≠ t.id → x.user = u →
      x.end_date < t.start_date ∨ t.end_date < x.start_date := by
    intro x hx hne hxu
    have hsymm : Symmetric (fun r1 r2 : ContributionRange =>
        r1.user = r2.user → r1.end_date < r2.start_date ∨ r2.end_date < r1.start_date) := by
      intro r1 r2 h he
      exact (h he.symm).symm
    have hxt : x ≠ t := fun he => hne (by rw [he])
    exact List.Pairwise.forall hsymm w2 hx ht hxt (by rw [hxu, htu])
  have hdel : deleteRange (removeRangeContributions db t.id) t.id = Except.ok
      ⟨db.ranges.filter (fun r => !(r.id == t.id)),
        db.contributions.filter (fun c => !(c.date_range == t.id)),
        db.goals, db.transactions, db.nextId⟩ := by
    unfold deleteRange
    rw [if_pos]
    · rfl
    · rw [List.isEmpty_iff]
      apply List.filter_eq_nil_iff.mpr
      intro c hc
      have h2 := (List.mem_filter.mp hc).2
      simp only [Bool.not_eq_true', beq_eq_false_iff_ne, ne_eq] at h2
      simp only [beq_iff_eq]
      exact h2
  have hov : get_overlapping_ranges
      (⟨db.ranges.filter (fun r => !(r.id == t.id)),
        db.contributions.filter (fun c => !(c.date_range == t.id)),
        db.goals, db.transactions, db.nextId⟩ : DB) u t.start_date t.end_date = [] := by
    rw [get_overlapping_ranges]
    apply List.filter_eq_nil_iff.mpr
    intro x hx
    obtain ⟨hxm, hxid⟩ := List.mem_filter.mp hx
    simp only [Bool.not_eq_true', beq_eq_false_iff_ne, ne_eq] at hxid
    intro hcon
    simp only [Bool.and_eq_true] at hcon
    obtain ⟨hxu, hxq⟩ := hcon
    have hxu2 : x.user = u := by simpa using hxu
    have hiff := (overlapsQuery_iff_of_wf (le_of_lt (w1 x hxm)) (le_of_lt h1t)).mp hxq
    rcases hdisj x hxm hxid hxu2 with h | h <;> omega
  have hid2 : ∀ r ∈ (⟨db.ranges.filter (fun r => !(r.id == t.id)),
        db.contributions.filter (fun c => !(c.date_range == t.id)),
        db.goals, db.transactions, db.nextId⟩ : DB).ranges,
      r.id < (⟨db.ranges.filter (fun r => !(r.id == t.id)),
        db.contributions.filter (fun c => !(c.date_range == t.id)),
        db.goals, db.transactions, db.nextId⟩ : DB).nextId := by
    intro r hr
    exact w3 r (List.mem_filter.mp hr).1
  have hfresh : ∀ c ∈ (⟨db.ranges.filter (fun r => !(r.id == t.id)),
        db.contributions.filter (fun c => !(c.date_range == t.id)),
        db.goals, db.transactions, db.nextId⟩ : DB).contributions,
      c.date_range ≠ db.nextId := by
    intro c hc
    obtain ⟨r, hr, hrid⟩ := w6 c (List.mem_filter.mp hc).1
    have := w3 r hr
    omega
  have hg : ∀ gp ∈ backupOf db t.id, ∃ g, findGoal
      (⟨db.ranges.filter (fun r => !(r.id == t.id)),
        db.contributions.filter (fun c => !(c.date_range == t.id)),
        db.goals, db.transactions, db.nextId⟩ : DB) gp.1 = some g ∧
      g.status ≠ GoalStatus.completed ∧ g.start_date ≤ t.start_date ∧
      t.end_date ≤ g.expected_completion_date := by
    intro gp hgp
    obtain ⟨c, hc, rfl⟩ := List.mem_map.mp hgp
    have hx := hguard c hc
    cases hfg : findGoal db c.goal with
    | none => rw [contribGuardOk, hfg] at hx; exact absurd hx (by simp)
    | some g =>
      rw [contribGuardOk, hfg] at hx
      have hprops := of_decide_eq_true hx
      exact ⟨g, hfg, hprops⟩
  have hsum : ((backupOf db t.id).map (fun gp => gp.2)).sum ≤ 100 := by
    have hmm : (backupOf db t.id).map (fun gp => gp.2) =
        (rangeContributions db t.id).map (fun c => c.percentage) := by
      rw [backupOf, List.map_map]
      rfl
    rw [hmm]
    exact w5 t ht
  have hcw := createWithContributions_success
    (⟨db.ranges.filter (fun r => !(r.id == t.id)),
      db.contributions.filter (fun c => !(c.date_range == t.id)),
      db.goals, db.transactions, db.nextId⟩ : DB) u t.start_date t.end_date
    (backupOf db t.id) h1t hov hid2 hfresh hg hsum
  have hmid : middleStep u S E t (backupOf db t.id)
      (⟨db.ranges.filter (fun r => !(r.id == t.id)),
        db.contributions.filter (fun c => !(c.date_range == t.id)),
        db.goals, db.transactions, db.nextId⟩ : DB) = Except.ok
      (⟨db.ranges.filter (fun r => !(r.id == t.id)) ++
          [⟨db.nextId, u, t.start_date, t.end_date⟩],
        db.contributions.filter (fun c => !(c.date_range == t.id)) ++
          recreated (db.nextId + 1) db.nextId (backupOf db t.id),
        db.goals, db.transactions, db.nextId + 1 + (backupOf db t.id).length⟩,
       [⟨db.nextId, u, t.start_date, t.end_date⟩],
       [(t.start_date, t.end_date)]) := by
    unfold middleStep
    dsimp only
    have hms : (if t.start_date ≤ S then S else t.start_date) = t.start_date := by
      by_cases hc : t.start_date ≤ S
      · rw [if_pos hc]; omega
      · rw [if_neg hc]
    rw [hms]
    have hme : min (t.end_date - t.start_date) (E - t.start_date) =
        t.end_date - t.start_date := by omega
    rw [hme, if_pos (by omega),
      show t.start_date + (t.end_date - t.start_date) = t.end_date from by omega, hcw]
  unfold splitOne
  dsimp only
  rw [show (rangeContributions db t.id).map (fun c => (c.goal, c.percentage)) =
    backupOf db t.id from rfl]
  rw [hdel]
  dsimp only
  have hleft : leftStep u S t (backupOf db t.id)
      (⟨db.ranges.filter (fun r => !(r.id == t.id)),
        db.contributions.filter (fun c => !(c.date_range == t.id)),
        db.goals, db.transactions, db.nextId⟩ : DB) = Except.ok
      ((⟨db.ranges.filter (fun r => !(r.id == t.id)),
        db.contributions.filter (fun c => !(c.date_range == t.id)),
        db.goals, db.transactions, db.nextId⟩ : DB), [], []) := by
    unfold leftStep
    rw [if_neg (by omega)]
  rw [hleft]
  have hinner : andThenStep (Except.ok
      ((⟨db.ranges.filter (fun r => !(r.id == t.id)),
        db.contributions.filter (fun c => !(c.date_range == t.id)),
        db.goals, db.transactions, db.nextId⟩ : DB), [], []))
      (middleStep u S E t (backupOf db t.id)) = Except.ok
      ((⟨db.ranges.filter (fun r => !(r.id == t.id)) ++
          [⟨db.nextId, u, t.start_date, t.end_date⟩],
        db.contributions.filter (fun c => !(c.date_range == t.id)) ++
          recreated (db.nextId + 1) db.nextId (backupOf db t.id),
        db.goals, db.transactions, db.nextId + 1 + (backupOf db t.id).length⟩ : DB),
       [⟨db.nextId, u, t.start_date, t.end_date⟩],
       [(t.start_date, t.end_date)]) := by
    rw [andThenStep.eq_def]
    dsimp only
    rw [hmid]
    rfl
  rw [hinner]
  have hright : rightStep u E t (backupOf db t.id)
      (⟨db.ranges.filter (fun r => !(r.id == t.id)) ++
          [⟨db.nextId, u, t.start_date, t.end_date⟩],
        db.contributions.filter (fun c => !(c.date_range == t.id)) ++
          recreated (db.nextId + 1) db.nextId (backupOf db t.id),
        db.goals, db.transactions, db.nextId + 1 + (backupOf db t.id).length⟩ : DB) =
      Except.ok
      ((⟨db.ranges.filter (fun r => !(r.id == t.id)) ++
          [⟨db.nextId, u, t.start_date, t.end_date⟩],
        db.contributions.filter (fun c => !(c.date_range == t.id)) ++
          recreated (db.nextId + 1) db.nextId (backupOf db t.id),
        db.goals, db.transactions, db.nextId + 1 + (backupOf db t.id).length⟩ : DB),
       [], []) := by
    unfold rightStep
    rw [if_neg (by omega)]
  rw [andThenStep.eq_def]
  dsimp only
  rw [hright]
  simp

/-- A list with unique ids is a permutation of any member consed onto the list
with that member's id filtered out. -/
theorem perm_cons_filter_ne (t : ContributionRange) :
    ∀ (l : List ContributionRange), (l.map (fun x => x.id)).Nodup → t ∈ l →
    l.Perm (t :: l.filter (fun x => !(x.id == t.id))) := by
  intro l
  induction l with
  | nil => intro _ h; exact absurd h (List.not_mem_nil t)
  | cons a rest ih =>
    intro hnd hmem
    rw [List.map_cons, List.nodup_cons] at hnd
    obtain ⟨hna, hndr⟩ := hnd
    rcases List.mem_cons.mp hmem with heq | hrest
    · rw [← heq] at hna ⊢
      simp only [List.filter_cons]
      rw [if_neg (by simp)]
      have hself : rest.filter (fun x => !(x.id == t.id)) = rest := by
        apply List.filter_eq_self.mpr
        intro x hx
        simp only [Bool.not_eq_true', beq_eq_false_iff_ne, ne_eq]
        intro he
        exact hna (he ▸ List.mem_map_of_mem (fun x => x.id) hx)
      rw [hself]
    · have hane : (!(a.id == t.id)) = true := by
        simp only [Bool.not_eq_true', beq_eq_false_iff_ne, ne_eq]
        intro he
        exact hna (by rw [he]; exact List.mem_map_of_mem (fun x => x.id) hrest)
      simp only [List.filter_cons]
      rw [if_pos hane]
      exact (List.Perm.cons a (ih hndr hrest)).trans
        (List.Perm.swap t a (rest.filter (fun x => !(x.id == t.id))))

/-- After one tile split, the contributions of any other still-live range are
untouched. -/
theorem rangeContributions_shift {db db2 : DB} {tid n : Nat} {backup : List (Nat × Nat)}
    (hc2 : db2.contributions = db.contributions.filter (fun c => !(c.date_range == tid)) ++
      recreated (n + 1) n backup)
    {rid : Nat} (hne : rid ≠ tid) (hnr : rid ≠ n) :
    rangeContributions db2 rid = rangeContributions db rid := by
  rw [rangeContributions, hc2, List.filter_append, filter_filter_ne rid tid hne]
  have hnil : (recreated (n + 1) n backup).filter (fun c => c.date_range == rid) = [] := by
    apply List.filter_eq_nil_iff.mpr
    intro c hc
    have := recreated_date_range n backup (n + 1) c hc
    simp only [beq_iff_eq]
    omega
  rw [hnil, List.append_nil]
  rfl

/-- Deleting a tile and recreating its exact span with its snapshot leaves the
user's partition (spans with attached `(goal, percentage)` multisets) unchanged. -/
theorem partition_after_tile {db db2 : DB} {u : Nat} {t : ContributionRange}
    (ht : t ∈ db.ranges) (htu : t.user = u)
    (hnd : (db.ranges.map (fun x => x.id)).Nodup)
    (hid : ∀ r ∈ db.ranges, r.id < db.nextId)
    (hfk : ∀ c ∈ db.contributions, ∃ r ∈ db.ranges, r.id = c.date_range)
    (hr2 : db2.ranges = db.ranges.filter (fun x => !(x.id == t.id)) ++
      [⟨db.nextId, u, t.start_date, t.end_date⟩])
    (hc2 : db2.contributions = db.contributions.filter (fun c => !(c.date_range == t.id)) ++
      recreated (db.nextId + 1) db.nextId (backupOf db t.id)) :
    partition db2 u = partition db u := by
  have hnewrc : rangeContributions db2 db.nextId =
      recreated (db.nextId + 1) db.nextId (backupOf db t.id) := by
    rw [rangeContributions, hc2, List.filter_append]
    have h1 : (db.contributions.filter (fun c => !(c.date_range == t.id))).filter
        (fun c => c.date_range == db.nextId) = [] := by
      apply List.filter_eq_nil_iff.mpr
      intro c hc
      obtain ⟨r, hr, hrid⟩ := hfk c (List.mem_filter.mp hc).1
      have := hid r hr
      simp only [beq_iff_eq]
      omega
    have h2 : (recreated (db.nextId + 1) db.nextId (backupOf db t.id)).filter
        (fun c => c.date_range == db.nextId) =
        recreated (db.nextId + 1) db.nextId (backupOf db t.id) := by
      apply List.filter_eq_self.mpr
      intro c hc
      simp only [beq_iff_eq]
      exact recreated_date_range db.nextId (backupOf db t.id) (db.nextId + 1) c hc
    rw [h1, h2, List.nil_append]
  have hsame : ∀ x ∈ db.ranges, x.id ≠ t.id →
      rangeContributions db2 x.id = rangeContributions db x.id := by
    intro x hx hne
    exact rangeContributions_shift hc2 hne (by have := hid x hx; omega)
  unfold partition
  rw [Multiset.coe_eq_coe, hr2, List.filter_append]
  rw [show ([(⟨db.nextId, u, t.start_date, t.end_date⟩ : ContributionRange)].filter
    (fun r => r.user == u)) = [⟨db.nextId, u, t.start_date, t.end_date⟩] from by simp]
  rw [List.map_append]
  have hA : ((db.ranges.filter (fun x => !(x.id == t.id))).filter
      (fun r => r.user == u)).map (fun r => ((r.start_date, r.end_date,
        (((rangeContributions db2 r.id).map (fun c => (c.goal, c.percentage))) :
          Multiset (Nat × Nat))))) =
      ((db.ranges.filter (fun x => !(x.id == t.id))).filter
      (fun r => r.user == u)).map (fun r => ((r.start_date, r.end_date,
        (((rangeContributions db r.id).map (fun c => (c.goal, c.percentage))) :
          Multiset (Nat × Nat))))) := by
    apply List.map_congr_left
    intro x hx
    obtain ⟨hx1, _⟩ := List.mem_filter.mp hx
    obtain ⟨hx2, hx3⟩ := List.mem_filter.mp hx1
    have hne : x.id ≠ t.id := by
      simp only [Bool.not_eq_true', beq_eq_false_iff_ne, ne_eq] at hx3
      exact hx3
    rw [hsame x hx2 hne]
  rw [hA]
  have hnt : ([(⟨db.nextId, u, t.start_date, t.end_date⟩ : ContributionRange)].map
      (fun r => ((r.start_date, r.end_date,
        (((rangeContributions db2 r.id).map (fun c => (c.goal, c.percentage))) :
          Multiset (Nat × Nat)))))) =
      [(t.start_date, t.end_date,
        (((rangeContributions db t.id).map (fun c => (c.goal, c.percentage))) :
          Multiset (Nat × Nat)))] := by
    rw [List.map_cons, List.map_nil]
    have : rangeContributions db2
        (⟨db.nextId, u, t.start_date, t.end_date⟩ : ContributionRange).id =
        recreated (db.nextId + 1) db.nextId (backupOf db t.id) := hnewrc
    rw [this, recreated_map_pair db.nextId (backupOf db t.id) (db.nextId + 1)]
    rw [show backupOf db t.id =
      (rangeContributions db t.id).map (fun c => (c.goal, c.percentage)) from rfl]
  rw [hnt]
  have hcomm : (db.ranges.filter (fun x => !(x.id == t.id))).filter
      (fun r => r.user == u) =
      (db.ranges.filter (fun r => r.user == u)).filter (fun x => !(x.id == t.id)) := by
    rw [List.filter_filter, List.filter_filter]
    exact List.filter_congr (fun a _ => Bool.and_comm _ _)
  rw [hcomm]
  have hmemu : t ∈ db.ranges.filter (fun r => r.user == u) :=
    List.mem_filter.mpr ⟨ht, by simp [htu]⟩
  have hsubl : List.Sublist (db.ranges.filter (fun r => r.user == u)) db.ranges :=
    List.filter_sublist db.ranges
  have hndu : ((db.ranges.filter (fun r => r.user == u)).map (fun x => x.id)).Nodup :=
    List.Nodup.sublist (List.Sublist.map (fun x => x.id) hsubl) hnd
  have hperm := perm_cons_filter_ne t (db.ranges.filter (fun r => r.user == u)) hndu hmemu
  refine List.Perm.trans (List.perm_append_singleton _ _) ?_
  exact (hperm.map (fun r => ((r.start_date, r.end_date,
    (((rangeContributions db r.id).map (fun c => (c.goal, c.percentage))) :
      Multiset (Nat × Nat)))))).symm

/-- The split loop over a list of tiles (pairwise-distinct stored ranges lying
inside `[S, E]` whose contributions pass their guards) succeeds, records exactly
the tiles' spans as filled, and leaves the user's partition unchanged. -/
theorem splitAll_tiles (u : Nat) (S E : Int) :
    ∀ (ts : List ContributionRange) (db : DB),
    WF db →
    (∀ t ∈ ts, t ∈ db.ranges ∧ t.user = u ∧ S ≤ t.start_date ∧ t.end_date ≤ E) →
    (∀ t ∈ ts, ∀ c ∈ rangeContributions db t.id, contribGuardOk db t c = true) →
    (ts.map (fun x => x.id)).Nodup →
    ∃ db2 rs, splitAll u S E ts db = Except.ok (db2, rs,
      ts.map (fun t => (t.start_date, t.end_date))) ∧
      partition db2 u = partition db u := by
  intro ts
  induction ts with
  | nil => intro db _ _ _ _; exact ⟨db, [], rfl, rfl⟩
  | cons t rest ih =>
    intro db hwf htl hgd hnd
    have hwfc := hwf
    obtain ⟨w1, w2, w3, w4, w5, w6, w7⟩ := hwfc
    obtain ⟨ht, htu, hts, hte⟩ := htl t (List.mem_cons_self t rest)
    rw [List.map_cons, List.nodup_cons] at hnd
    obtain ⟨hni, hndr⟩ := hnd
    have hstep := splitOne_tile hwf ht htu hts hte (hgd t (List.mem_cons_self t rest))
    have hwf2 := (wf_splitOne db u S E t hwf).1 _ _ _ hstep
    have hidne : ∀ t2 ∈ rest, t2.id ≠ t.id := by
      intro t2 h2 he
      exact hni (by rw [← he]; exact List.mem_map_of_mem (fun x => x.id) h2)
    have htl2 : ∀ t2 ∈ rest, t2 ∈
        (⟨db.ranges.filter (fun x => !(x.id == t.id)) ++
            [⟨db.nextId, u, t.start_date, t.end_date⟩],
          db.contributions.filter (fun c => !(c.date_range == t.id)) ++
            recreated (db.nextId + 1) db.nextId (backupOf db t.id),
          db.goals, db.transactions,
          db.nextId + 1 + (backupOf db t.id).length⟩ : DB).ranges ∧
        t2.user = u ∧ S ≤ t2.start_date ∧ t2.end_date ≤ E := by
      intro t2 h2
      obtain ⟨hm, hu2, hs2, he2⟩ := htl t2 (List.mem_cons_of_mem t h2)
      refine ⟨List.mem_append_left _ (List.mem_filter.mpr ⟨hm, ?_⟩), hu2, hs2, he2⟩
      simp only [Bool.not_eq_true', beq_eq_false_iff_ne, ne_eq]
      exact hidne t2 h2
    have hgd2 : ∀ t2 ∈ rest, ∀ c ∈ rangeContributions
        (⟨db.ranges.filter (fun x => !(x.id == t.id)) ++
            [⟨db.nextId, u, t.start_date, t.end_date⟩],
          db.contributions.filter (fun c => !(c.date_range == t.id)) ++
            recreated (db.nextId + 1) db.nextId (backupOf db t.id),
          db.goals, db.transactions,
          db.nextId + 1 + (backupOf db t.id).length⟩ : DB) t2.id,
        contribGuardOk
        (⟨db.ranges.filter (fun x => !(x.id == t.id)) ++
            [⟨db.nextId, u, t.start_date, t.end_date⟩],
          db.contributions.filter (fun c => !(c.date_range == t.id)) ++
            recreated (db.nextId + 1) db.nextId (backupOf db t.id),
          db.goals, db.transactions,
          db.nextId + 1 + (backupOf db t.id).length⟩ : DB) t2 c = true := by
      intro t2 h2 c hc
      have hmem := (htl t2 (List.mem_cons_of_mem t h2)).1
      have hshift : rangeContributions
          (⟨db.ranges.filter (fun x => !(x.id == t.id)) ++
              [⟨db.nextId, u, t.start_date, t.end_date⟩],
            db.contributions.filter (fun c => !(c.date_range == t.id)) ++
              recreated (db.nextId + 1) db.nextId (backupOf db t.id),
            db.goals, db.transactions,
            db.nextId + 1 + (backupOf db t.id).length⟩ : DB) t2.id =
          rangeContributions db t2.id :=
        rangeContributions_shift rfl (hidne t2 h2) (by have := w3 t2 hmem; omega)
      rw [hshift] at hc
      exact hgd t2 (List.mem_cons_of_mem t h2) c hc
    obtain ⟨db3, rs2, hsp2, hpart2⟩ := ih _ hwf2 htl2 hgd2 hndr
    refine ⟨db3, ⟨db.nextId, u, t.start_date, t.end_date⟩ :: rs2, ?_, ?_⟩
    · rw [splitAll.eq_def]
      dsimp only
      rw [hstep]
      dsimp only
      rw [hsp2]
      rfl
    · exact hpart2.trans (partition_after_tile ht htu w4 w3 w6 rfl rfl)

/-- C5 (amended theorem).  `add_new_range` is not idempotent in general (see the
counterexample: with reversed bounds a successful call can be followed by a
failing, partition-mutating call).  What does hold: whenever the user's ranges
intersecting `[S, E]` already lie inside `[S, E]` and tile it without gaps, and
every attached contribution passes its recreation guards — exactly the state a
successful claim of `[S, E]` leaves behind — the call succeeds again and leaves
the partition (spans with their `(goal, percentage)` multisets) unchanged. -/
theorem C5_amended (db : DB) (u : Nat) (S E : Int)
    (hwf : WF db) (hSE : S ≤ E)
    (htile : ∀ r ∈ get_overlapping_ranges db u S E, S ≤ r.start_date ∧ r.end_date ≤ E)
    (hgaps : find_gaps ((get_overlapping_ranges db u S E).map
      (fun t => (t.start_date, t.end_date))) S E = [])
    (hguards : ∀ t ∈ get_overlapping_ranges db u S E,
      ∀ c ∈ rangeContributions db t.id, contribGuardOk db t c = true) :
    ∃ res, (add_new_range db u S E).2 = Except.ok res ∧
      partition (add_new_range db u S E).1 u = partition db u := by
  have hnonnil : get_overlapping_ranges db u S E ≠ [] := by
    intro hc
    rw [hc, List.map_nil] at hgaps
    simp only [find_gaps, sortPairs, find_gaps_go] at hgaps
    rw [if_pos (by omega)] at hgaps
    exact absurd hgaps (by simp)
  have hemp : ¬ (get_overlapping_ranges db u S E).isEmpty = true := by
    rw [List.isEmpty_iff]
    exact hnonnil
  have hwfc := hwf
  obtain ⟨w1, w2, w3, w4, w5, w6, w7⟩ := hwfc
  have htl : ∀ t ∈ get_overlapping_ranges db u S E,
      t ∈ db.ranges ∧ t.user = u ∧ S ≤ t.start_date ∧ t.end_date ≤ E := by
    intro t htm
    obtain ⟨hm, hu2, _⟩ := mem_get_overlapping_ranges.mp htm
    obtain ⟨h1, h2⟩ := htile t htm
    exact ⟨hm, hu2, h1, h2⟩
  have hndov : ((get_overlapping_ranges db u S E).map (fun x => x.id)).Nodup := by
    have hsubl : List.Sublist (get_overlapping_ranges db u S E) db.ranges := by
      rw [get_overlapping_ranges]
      exact List.filter_sublist _
    exact List.Nodup.sublist (List.Sublist.map (fun x => x.id) hsubl) w4
  obtain ⟨db2, rs, hsp, hpart⟩ := splitAll_tiles u S E (get_overlapping_ranges db u S E)
    db hwf htl hguards hndov
  have hmain : add_new_range db u S E = (db2, Except.ok (sortByStart (rs ++ []))) := by
    unfold add_new_range
    dsimp only
    rw [if_neg hemp, hsp]
    dsimp only
    rw [hgaps]
    rfl
  exact ⟨sortByStart (rs ++ []), by rw [hmain], by rw [hmain]; exact hpart⟩

/-- C5 (witness).  The persisted state of a successful `add_new_range dbSplit 0 10 20`
(the C1/C2 scenario) satisfies every hypothesis, so claiming `[10, 20]` a second
time succeeds and leaves the partition unchanged. -/
theorem C5_amended_witness :
    WF dbTiled ∧ (10 : Int) ≤ 20 ∧
    (∀ r ∈ get_overlapping_ranges dbTiled 0 10 20,
      (10 : Int) ≤ r.start_date ∧ r.end_date ≤ 20) ∧
    find_gaps ((get_overlapping_ranges dbTiled 0 10 20).map
      (fun t => (t.start_date, t.end_date))) 10 20 = [] ∧
    (∀ t ∈ get_overlapping_ranges dbTiled 0 10 20,
      ∀ c ∈ rangeContributions dbTiled t.id, contribGuardOk dbTiled t c = true) ∧
    ∃ res, (add_new_range dbTiled 0 10 20).2 = Except.ok res ∧
      partition (add_new_range dbTiled 0 10 20).1 0 = partition dbTiled 0 :=
  ⟨⟨by decide, by decide, by decide, by decide, by decide, by decide, by decide⟩,
   by decide, by decide, by decide, by decide,
   C5_amended dbTiled 0 10 20
     ⟨by decide, by decide, by decide, by decide, by decide, by decide, by decide⟩
     (by decide) (by decide) (by decide) (by decide)⟩

end Budget
